import Mathlib

/-!
Shallow embedding of the LightNBT library (src/lnbt.hpp, src/lmca.hpp).

Byte streams are modelled as `List Nat` (each element a byte value in
[0, 256)); character streams for the SNBT text codec as `List Char`.
C++ machine integers are modelled as `Int` with explicit two's complement
conversion at the byte boundary; `float`/`double` payloads are carried as
their raw IEEE bit patterns (a `Nat`), exactly as the C++ codec moves them
(`bit_cast` + `byteswap` never inspects the value).
-/

namespace nbt

/-- The type ID of a tag (`nbt::TagType` in src/lnbt.hpp). -/
inductive TagType where
  | End | Byte | Short | Int | Long | Float | Double
  | ByteArray | String | List | Compound | IntArray | LongArray
deriving DecidableEq, Repr

/-- Numeric id of a tag type (the enum values 0..12). -/
def typeId : TagType → Nat
  | .End => 0
  | .Byte => 1
  | .Short => 2
  | .Int => 3
  | .Long => 4
  | .Float => 5
  | .Double => 6
  | .ByteArray => 7
  | .String => 8
  | .List => 9
  | .Compound => 10
  | .IntArray => 11
  | .LongArray => 12

/-- Inverse of `typeId`; `none` models the `default: throw` branch of
`nbt::match` ("unsupported tag ID") for ids outside 0..12. -/
def tagTypeOfNat : Nat → Option TagType
  | 0 => some .End
  | 1 => some .Byte
  | 2 => some .Short
  | 3 => some .Int
  | 4 => some .Long
  | 5 => some .Float
  | 6 => some .Double
  | 7 => some .ByteArray
  | 8 => some .String
  | 9 => some .List
  | 10 => some .Compound
  | 11 => some .IntArray
  | 12 => some .LongArray
  | _ => none

/-- A C++ `std::string`: a sequence of characters (single bytes). -/
abbrev Str : Type := List Char

/-- `std::string` `operator<`: lexicographic, characters compared as
unsigned bytes (`char_traits<char>::compare`). -/
def strLt : Str → Str → Bool
  | [], [] => false
  | [], _ :: _ => true
  | _ :: _, [] => false
  | a :: x, b :: y =>
    if a.toNat < b.toNat then true
    else if b.toNat < a.toNat then false
    else strLt x y

mutual
/-- `nbt::Tag`: a variant over the 13 payload kinds.  `byteArr`, `intArr`,
`longArr` carry their elements as `Int` (the int8_t / int / long long
values); `float`/`double` carry the raw IEEE bit pattern; `list` carries the
element type (the variant index of `nbt::List`) next to the elements;
`compound` carries the ordered name/tag entries of the `std::map`. -/
inductive Tag where
  | tEnd : Tag
  | byte (v : Int) : Tag
  | short (v : Int) : Tag
  | int (v : Int) : Tag
  | long (v : Int) : Tag
  | float (bits : Nat) : Tag
  | double (bits : Nat) : Tag
  | byteArr (v : List Int) : Tag
  | str (s : Str) : Tag
  | list (ety : TagType) (elems : TagList) : Tag
  | compound (fs : Fields) : Tag
  | intArr (v : List Int) : Tag
  | longArr (v : List Int) : Tag

/-- The element sequence of an `nbt::List`. -/
inductive TagList where
  | nil : TagList
  | cons (t : Tag) (ts : TagList) : TagList

/-- The ordered key/value entries of an `nbt::Compound` (a `std::map`:
strictly increasing keys; see `fSorted`). -/
inductive Fields where
  | fnil : Fields
  | fcons (name : Str) (v : Tag) (fs : Fields) : Fields
end

deriving instance DecidableEq for Tag
deriving instance DecidableEq for TagList
deriving instance DecidableEq for Fields

/-- `Tag::getType()`: the variant index. -/
def tagTy : Tag → TagType
  | .tEnd => .End
  | .byte _ => .Byte
  | .short _ => .Short
  | .int _ => .Int
  | .long _ => .Long
  | .float _ => .Float
  | .double _ => .Double
  | .byteArr _ => .ByteArray
  | .str _ => .String
  | .list _ _ => .List
  | .compound _ => .Compound
  | .intArr _ => .IntArray
  | .longArr _ => .LongArray

/-- `nbt::NBT`: a named tag. -/
structure NBT where
  name : Str
  tag : Tag
deriving DecidableEq

/-- Number of elements of a `TagList` (`vector::size`). -/
def lenL : TagList → Nat
  | .nil => 0
  | .cons _ ts => lenL ts + 1
termination_by structural ts => ts

/-- A list of `n` End tags (the reading of a `vector<monostate>` of size `n`). -/
def replicateEnd : Nat → TagList
  | 0 => .nil
  | n + 1 => .cons .tEnd (replicateEnd n)

/-- `std::map::find` (keys are unique, so a linear scan is equivalent). -/
def fFind : Fields → Str → Option Tag
  | .fnil, _ => none
  | .fcons k w fs, n => if n = k then some w else fFind fs n
termination_by structural fs _ => fs

/-- `std::map::insert(make_pair(name, tag))`: inserts in key order and keeps
the existing entry when the key is already present. -/
def fInsert : Fields → Str → Tag → Fields
  | .fnil, n, v => .fcons n v .fnil
  | .fcons k w fs, n, v =>
    if strLt n k then .fcons n v (.fcons k w fs)
    else if n = k then .fcons k w fs
    else .fcons k w (fInsert fs n v)
termination_by structural fs _ _ => fs

/-- Append of field lists. -/
def fAppend : Fields → Fields → Fields
  | .fnil, gs => gs
  | .fcons k w fs, gs => .fcons k w (fAppend fs gs)
termination_by structural fs _ => fs

/-- Every key of `fs` is greater than `n`. -/
def fAllGt (n : Str) : Fields → Bool
  | .fnil => true
  | .fcons k _ fs => strLt n k && fAllGt n fs
termination_by structural fs => fs

/-- Every key of `fs` is less than `n`. -/
def fAllLt : Fields → Str → Bool
  | .fnil, _ => true
  | .fcons k _ fs, n => strLt k n && fAllLt fs n
termination_by structural fs _ => fs

/-- The `std::map` ordering invariant: keys strictly increasing. -/
def fSorted : Fields → Bool
  | .fnil => true
  | .fcons n _ fs => fAllGt n fs && fSorted fs
termination_by structural fs => fs

/-- Folding `fInsert` over entries in stream order (what the compound
decoders of both codecs do). -/
def ffold : Fields → Fields → Fields
  | acc, .fnil => acc
  | acc, .fcons n v fs => ffold (fInsert acc n v) fs
termination_by structural _ fs => fs

end nbt

namespace nbt.bin

/-- Byte order parameter of `nbt::bin::io`. -/
inductive Endian where
  | big | little
deriving DecidableEq

/-- Little-endian byte decomposition: `w` bytes of `v`. -/
def toBytesLE : Nat → Nat → List Nat
  | 0, _ => []
  | w + 1, v => v % 256 :: toBytesLE w (v / 256)

/-- Assemble little-endian bytes into a value. -/
def fromBytesLE : List Nat → Nat
  | [] => 0
  | b :: bs => b + 256 * fromBytesLE bs

/-- The `w` memory bytes of an unsigned value after `endianswap<endian>`:
in stream order (the order `ostream::write` emits / `istream::read`
consumes them). -/
def encBytes (e : Endian) (w : Nat) (v : Nat) : List Nat :=
  match e with
  | .little => toBytesLE w v
  | .big => (toBytesLE w v).reverse

/-- Assemble `w` stream bytes into the unsigned value, per byte order. -/
def decBytes (e : Endian) (bs : List Nat) : Nat :=
  match e with
  | .little => fromBytesLE bs
  | .big => fromBytesLE bs.reverse

/-- Two's complement representation of a signed value in `w` bytes
(the object representation C++ writes). -/
def toUnsigned (w : Nat) (v : Int) : Nat :=
  (v % ((2 : Int) ^ (8 * w))).toNat

/-- Reinterpret `w` bytes' unsigned value as the signed two's complement
value (what loading into a signed integer object yields). -/
def toSigned (w : Nat) (n : Nat) : Int :=
  if n < 2 ^ (8 * w - 1) then (n : Int) else (n : Int) - (2 : Int) ^ (8 * w)

/-- `io<endian>::write<T>` for an integral `T` of width `w`. -/
def writeIntegral (e : Endian) (w : Nat) (v : Int) : List Nat :=
  encBytes e w (toUnsigned w v)

/-- Split off exactly `n` bytes of the stream; `none` models the eofbit
exception (or, for the huge sign-extended sizes, the failed allocation):
the stream cannot supply `n` bytes. -/
def takeExact : Nat → List Nat → Option (List Nat × List Nat)
  | 0, s => some ([], s)
  | _ + 1, [] => none
  | n + 1, b :: s => (takeExact n s).map (fun p => (b :: p.1, p.2))

/-- `istream::get` of one byte (throws at end of stream). -/
def readByteRaw : List Nat → Option (Nat × List Nat)
  | [] => none
  | b :: s => some (b, s)

/-- `io<endian>::read<T>` for an integral `T` of width `w`. -/
def readIntegral (e : Endian) (w : Nat) (s : List Nat) : Option (Int × List Nat) :=
  (takeExact w s).map (fun p => (toSigned w (decBytes e p.1), p.2))

/-- `io<endian>::read<T>` for a floating-point `T` of width `w`: the raw bit
pattern moves unchanged (bit_cast + byteswap). -/
def readBits (e : Endian) (w : Nat) (s : List Nat) : Option (Nat × List Nat) :=
  (takeExact w s).map (fun p => (decBytes e p.1, p.2))

end nbt.bin

namespace nbt.bin

/-- `io<endian>::write<string>`: the 2-byte length field (`val.size()`
narrowed to `short`, whose object bytes are the length mod 2^16) followed
by all `size()` bytes of the string. -/
def writeStrB (e : Endian) (s : Str) : List Nat :=
  encBytes e 2 (s.length % 65536) ++ s.map Char.toNat

/-- The `size_t` the string reader computes from the signed 16-bit length
field: `size_t size = read<short>(in)` sign-extends the `short` to 64 bits. -/
def stringSizeOfShort (v : Int) : Nat := (v % ((2 : Int) ^ 64)).toNat

/-- `io<endian>::read<string>`. -/
def readStr (e : Endian) (s : List Nat) : Option (Str × List Nat) := do
  let (v, s1) ← readIntegral e 2 s
  let (payload, s2) ← takeExact (stringSizeOfShort v) s1
  some (payload.map Char.ofNat, s2)

/-- Element loop of `io::read<vector<T>>` for an integral scalar element
type of width `w`: `n` elements. -/
def readScalarElems (e : Endian) (w : Nat) : Nat → List Nat → Option (List Int × List Nat)
  | 0, s => some ([], s)
  | n + 1, s => do
    let (v, s1) ← readIntegral e w s
    let (vs, s2) ← readScalarElems e w n s1
    some (v :: vs, s2)

/-- `io::read<vector<T>>` for an integral scalar element type: a signed
32-bit count then the elements (a negative count fails the vector
construction). -/
def readScalarVec (e : Endian) (w : Nat) (s : List Nat) : Option (List Int × List Nat) := do
  let (c, s1) ← readIntegral e 4 s
  if c < 0 then none else readScalarElems e w c.toNat s1

mutual
/-- `io<endian>::read<Tag>(istream&, TagType)`: payload of tag id `tid`;
the `default` of `nbt::match` (ids outside 0..12) fails.  The fuel only
bounds the recursion depth; `bin.read` supplies more than any stream can
consume, so it never runs out on the inputs considered. -/
def readPayload (e : Endian) : Nat → Nat → List Nat → Option (Tag × List Nat)
  | 0, _, _ => none
  | f + 1, tid, s =>
    match tid with
    | 0 => some (.tEnd, s)
    | 1 => (readIntegral e 1 s).map (fun p => (.byte p.1, p.2))
    | 2 => (readIntegral e 2 s).map (fun p => (.short p.1, p.2))
    | 3 => (readIntegral e 4 s).map (fun p => (.int p.1, p.2))
    | 4 => (readIntegral e 8 s).map (fun p => (.long p.1, p.2))
    | 5 => (readBits e 4 s).map (fun p => (.float p.1, p.2))
    | 6 => (readBits e 8 s).map (fun p => (.double p.1, p.2))
    | 7 => (readScalarVec e 1 s).map (fun p => (.byteArr p.1, p.2))
    | 8 => (readStr e s).map (fun p => (.str p.1, p.2))
    | 9 => do
      let (eid, s1) ← readByteRaw s
      let ety ← tagTypeOfNat eid
      let (c, s2) ← readIntegral e 4 s1
      if c < 0 then none
      else (readElems e f ety c.toNat s2).map (fun p => (.list ety p.1, p.2))
    | 10 => (readFields e f .fnil s).map (fun p => (.compound p.1, p.2))
    | 11 => (readScalarVec e 4 s).map (fun p => (.intArr p.1, p.2))
    | 12 => (readScalarVec e 8 s).map (fun p => (.longArr p.1, p.2))
    | _ => none
termination_by f _ _ => (f, 0)

/-- Element loop of `io::read<vector<U>>` for a tag element type.  For
`U = monostate` each `read<monostate>` consumes nothing, so the loop
yields `n` End tags with the stream unchanged. -/
def readElems (e : Endian) : Nat → TagType → Nat → List Nat → Option (TagList × List Nat)
  | f, ety, n, s =>
    if ety = .End then some (replicateEnd n, s)
    else
      match n with
      | 0 => some (.nil, s)
      | n + 1 => do
        let (t, s1) ← readPayload e f (typeId ety) s
        let (ts, s2) ← readElems e f ety n s1
        some (.cons t ts, s2)
termination_by f _ n _ => (f, n + 1)

/-- `io<endian>::read<Compound>`: read a type byte; End terminates;
otherwise read name and payload and `insert` (first entry wins). -/
def readFields (e : Endian) : Nat → Fields → List Nat → Option (Fields × List Nat)
  | 0, _, _ => none
  | f + 1, acc, s => do
    let (tid, s1) ← readByteRaw s
    if tid = 0 then some (acc, s1)
    else do
      let (n, s2) ← readStr e s1
      let (v, s3) ← readPayload e f tid s2
      readFields e f (fInsert acc n v) s3
termination_by f _ _ => (f, 0)
end

mutual
/-- `io<endian>::write` of a tag payload. -/
def writePayload (e : Endian) : Tag → List Nat
  | .tEnd => []
  | .byte v => writeIntegral e 1 v
  | .short v => writeIntegral e 2 v
  | .int v => writeIntegral e 4 v
  | .long v => writeIntegral e 8 v
  | .float b => encBytes e 4 b
  | .double b => encBytes e 8 b
  | .byteArr v => writeIntegral e 4 (v.length : Int) ++ (v.map (writeIntegral e 1)).flatten
  | .str s => writeStrB e s
  | .list ety ts => typeId ety :: (writeIntegral e 4 (lenL ts : Int) ++ writeElems e ts)
  | .compound fs => writeFields e fs
  | .intArr v => writeIntegral e 4 (v.length : Int) ++ (v.map (writeIntegral e 4)).flatten
  | .longArr v => writeIntegral e 4 (v.length : Int) ++ (v.map (writeIntegral e 8)).flatten
termination_by structural t => t

/-- `io::write<vector<U>>` element loop for tag elements. -/
def writeElems (e : Endian) : TagList → List Nat
  | .nil => []
  | .cons t ts => writePayload e t ++ writeElems e ts
termination_by structural ts => ts

/-- `io<endian>::write<Compound>`: each entry as type byte, name, payload;
then a lone End byte. -/
def writeFields (e : Endian) : Fields → List Nat
  | .fnil => [0]
  | .fcons n v fs => typeId (tagTy v) :: (writeStrB e n ++ writePayload e v) ++ writeFields e fs
termination_by structural fs => fs
end

/-- `nbt::bin::write(ostream&, const NBT&)`. -/
def write (e : Endian) (doc : NBT) : List Nat :=
  typeId (tagTy doc.tag) :: (writeStrB e doc.name ++ writePayload e doc.tag)

/-- `nbt::bin::read(istream&)`: tag id, name, payload. -/
def read (e : Endian) (s : List Nat) : Option (NBT × List Nat) := do
  let (tid, s1) ← readByteRaw s
  let (n, s2) ← readStr e s1
  let (t, s3) ← readPayload e (s.length + 1) tid s2
  some (⟨n, t⟩, s3)

end nbt.bin

namespace nbt

/-- All characters of the string are single bytes (every C++ `std::string`
content is of this form). -/
def strOk (s : Str) : Bool := s.all (fun c => c.toNat < 256)

mutual
/-- Structural well-formedness of an in-memory tag tree: payloads
representable in the C++ types (int8_t..int64_t ranges, 32/64-bit
patterns, byte strings), lists homogeneous, compounds satisfying the
`std::map` invariant, and no End-typed compound values (End exists only as
the compound terminator and the empty-list placeholder, per the spec). -/
def wfT : Tag → Bool
  | .tEnd => true
  | .byte v => decide (-128 ≤ v ∧ v < 128)
  | .short v => decide (-32768 ≤ v ∧ v < 32768)
  | .int v => decide (-(2 ^ 31 : Int) ≤ v ∧ v < 2 ^ 31)
  | .long v => decide (-(2 ^ 63 : Int) ≤ v ∧ v < 2 ^ 63)
  | .float b => decide (b < 2 ^ 32)
  | .double b => decide (b < 2 ^ 64)
  | .byteArr v => v.all (fun x => decide (-128 ≤ x ∧ x < 128))
  | .str s => strOk s
  | .list ety ts => wfL ety ts
  | .compound fs => fSorted fs && wfF fs
  | .intArr v => v.all (fun x => decide (-(2 ^ 31 : Int) ≤ x ∧ x < 2 ^ 31))
  | .longArr v => v.all (fun x => decide (-(2 ^ 63 : Int) ≤ x ∧ x < 2 ^ 63))
termination_by structural t => t

/-- Homogeneity of a list's elements with its stored element type. -/
def wfL : TagType → TagList → Bool
  | _, .nil => true
  | ety, .cons t ts => decide (tagTy t = ety) && wfT t && wfL ety ts
termination_by structural _ ts => ts

/-- Well-formedness of compound entries. -/
def wfF : Fields → Bool
  | .fnil => true
  | .fcons n v fs => strOk n && decide (tagTy v ≠ .End) && wfT v && wfF fs
termination_by structural fs => fs
end

mutual
/-- Size bounds under which the binary encoding is invertible: every
string (names included) shorter than 2^15 bytes and every array/list
count below 2^31. -/
def bT : Tag → Bool
  | .byteArr v => decide (v.length < 2 ^ 31)
  | .str s => decide (s.length < 32768)
  | .list _ ts => decide (lenL ts < 2 ^ 31) && bL ts
  | .compound fs => bF fs
  | .intArr v => decide (v.length < 2 ^ 31)
  | .longArr v => decide (v.length < 2 ^ 31)
  | _ => true
termination_by structural t => t

/-- Size bounds for list elements. -/
def bL : TagList → Bool
  | .nil => true
  | .cons t ts => bT t && bL ts
termination_by structural ts => ts

/-- Size bounds for compound entries. -/
def bF : Fields → Bool
  | .fnil => true
  | .fcons n v fs => decide (n.length < 32768) && bT v && bF fs
termination_by structural fs => fs
end

/-- Well-formedness of a named document. -/
def wfNBT (doc : NBT) : Bool := strOk doc.name && wfT doc.tag

/-- Size bounds of a named document. -/
def bNBT (doc : NBT) : Bool := decide (doc.name.length < 32768) && bT doc.tag

end nbt

namespace nbt

/-- `vector::push_back` on a tag list. -/
def tlSnoc : TagList → Tag → TagList
  | .nil, t => .cons t .nil
  | .cons u ts, t => .cons u (tlSnoc ts t)
termination_by structural ts _ => ts

end nbt

namespace mca

open nbt nbt.bin

/-- `mca::Chunk`. -/
structure Chunk where
  timestamp : Nat
  data : NBT
deriving DecidableEq

/-- `mca::Region`: 1024 optional chunk slots (`array<optional<Chunk>, 1024>`). -/
structure Region where
  slots : List (Option Chunk)
deriving DecidableEq

/-- `Region::get(x, z)`: `at(x + 32 * z)`; `none` models the
`std::out_of_range` exception thrown by `array::at`. -/
def Region.get (r : Region) (x z : Nat) : Option (Option Chunk) :=
  r.slots.get? (x + 32 * z)

/-- `mca::SectorInfo`. -/
structure SectorInfo where
  offset : Nat
  count : Nat
deriving DecidableEq

/-- `mca::getLocation`, in terms of the four stream bytes of the location
word.  (On a little-endian host the `uint32_t` read from the file holds
the file bytes b0..b3 in memory order; `byteswap(location) >> 8` is then
b0*2^16 + b1*2^8 + b2, and `reinterpret_cast<uint8_t*>(&location)[3]` is
b3.) -/
def getLocation (b0 b1 b2 b3 : Nat) : SectorInfo :=
  ⟨b0 * 65536 + b1 * 256 + b2, b3⟩

/-- The caller-supplied decompression strategy (`mca::Decompressor`): from
the remaining stream and the scheme id to the decompressed stream; `none`
is a failure inside the strategy. -/
abbrev Decompressor : Type := List Nat → Nat → Option (List Nat)

/-- Big-endian 32-bit word from four stream bytes (the `endianswap` of a
`uint32_t` read from the file). -/
def beWord (b0 b1 b2 b3 : Nat) : Nat := ((b0 * 256 + b1) * 256 + b2) * 256 + b3

/-- Read 4 bytes at absolute position `p` (`seekg(p)` then `read(.., 4)`). -/
def read4At (s : List Nat) (p : Nat) : Option (Nat × Nat × Nat × Nat) :=
  match s.drop p with
  | b0 :: b1 :: b2 :: b3 :: _ => some (b0, b1, b2, b3)
  | _ => none

/-- `mca::readChunk(istream&, Decompressor&, SectorInfo)`: seek to
`0x1000 * offset`, read the 4-byte length (whose value does not bound the
subsequent read), the compression scheme byte, and decode the document
from the (possibly decompressed) remaining stream. -/
def readChunkData (s : List Nat) (d : Decompressor) (loc : SectorInfo) : Except String NBT :=
  match takeExact 4 (s.drop (4096 * loc.offset)) with
  | none => .error "io failure"
  | some (_, s1) =>
    match s1 with
    | [] => .error "io failure"
    | c :: s2 =>
      if c = 3 then
        match bin.read .big s2 with
        | none => .error "nbt read failure"
        | some p => .ok p.1
      else if c = 1 ∨ c = 2 ∨ c = 4 ∨ c = 127 then
        match d s2 c with
        | none => .error "decompression failure"
        | some t =>
          match bin.read .big t with
          | none => .error "nbt read failure"
          | some p => .ok p.1
      else .error "unknown compression schemes"

/-- `mca::readChunk(istream&, Decompressor, size_t x, size_t z)`: read the
location word at `4 * (x + 32 z)`, check it, read the timestamp word, then
the chunk payload. -/
def readChunk (s : List Nat) (d : Decompressor) (x z : Nat) : Except String Chunk :=
  let off := x + 32 * z
  match read4At s (4 * off) with
  | none => .error "io failure"
  | some (b0, b1, b2, b3) =>
    let loc := getLocation b0 b1 b2 b3
    if loc.offset = 0 ∧ loc.count = 0 then
      .error "the chunk doesn't exist in the region file"
    else if loc.offset < 2 then
      .error "sector overlaps with header"
    else if loc.count = 0 then
      .error "size has to be > 0"
    else
      match read4At s (4096 + 4 * off) with
      | none => .error "io failure"
      | some (t0, t1, t2, t3) =>
        match readChunkData s d loc with
        | .error m => .error m
        | .ok doc => .ok ⟨beWord t0 t1 t2 t3, doc⟩

/-- Split a byte list into consecutive 4-byte words (reading an array of
`uint32_t` from the stream). -/
def words4 : List Nat → List (Nat × Nat × Nat × Nat)
  | b0 :: b1 :: b2 :: b3 :: rest => (b0, b1, b2, b3) :: words4 rest
  | _ => []

/-- Per-slot step of `mca::readRegion`: populate the slot only when
`location.offset >= 2 && location.count > 0`; other slots stay absent. -/
def readRegionSlot (s : List Nat) (d : Decompressor) (lw tw : Nat × Nat × Nat × Nat) :
    Except String (Option Chunk) :=
  let loc := getLocation lw.1 lw.2.1 lw.2.2.1 lw.2.2.2
  if 2 ≤ loc.offset ∧ 0 < loc.count then
    match readChunkData s d loc with
    | .error m => .error m
    | .ok doc => .ok (some ⟨beWord tw.1 tw.2.1 tw.2.2.1 tw.2.2.2, doc⟩)
  else .ok none

/-- Map failing on the first error (the whole-region read aborts on the
first failing chunk). -/
def mapExcept {α β : Type} (g : α → Except String β) : List α → Except String (List β)
  | [] => .ok []
  | a :: rest =>
    match g a with
    | .error m => .error m
    | .ok b =>
      match mapExcept g rest with
      | .error m => .error m
      | .ok bs => .ok (b :: bs)

/-- `mca::readRegion`: read the 4096-byte location table and the 4096-byte
timestamp table, then populate the 1024 slots in order. -/
def readRegion (s : List Nat) (d : Decompressor) : Except String Region :=
  match takeExact 4096 s with
  | none => .error "io failure"
  | some (locB, s1) =>
    match takeExact 4096 s1 with
    | none => .error "io failure"
    | some (tsB, _) =>
      match mapExcept (fun p => readRegionSlot s d p.1 p.2) ((words4 locB).zip (words4 tsB)) with
      | .error m => .error m
      | .ok slots => .ok ⟨slots⟩

end mca

namespace nbt.str

/-- C `isspace` on the characters the parser can see. -/
def isSpaceC (c : Char) : Bool :=
  c = ' ' || c = '\t' || c = '\n' || c = '\x0b' || c = '\x0c' || c = '\r'

/-- `str::detail::skipWhitespace`. -/
def skipWs : List Char → List Char
  | [] => []
  | c :: s => if isSpaceC c then skipWs s else c :: s

/-- `str::detail::isAllowedInUnquotedString`. -/
def isAllowedInUnquotedString (c : Char) : Bool :=
  ('0' ≤ c && c ≤ '9') || ('A' ≤ c && c ≤ 'Z') || ('a' ≤ c && c ≤ 'z') ||
    c = '_' || c = '-' || c = '.' || c = '+'

/-- `str::detail::readUnquotedString`: the maximal allowed-character run. -/
def readUnquoted : List Char → List Char × List Char
  | [] => ([], [])
  | c :: s =>
    if isAllowedInUnquotedString c then
      let p := readUnquoted s
      (c :: p.1, p.2)
    else ([], c :: s)

/-- `tolower` as used for the suffix dispatch (ASCII). -/
def toLowerC (c : Char) : Char :=
  if 'A' ≤ c && c ≤ 'Z' then Char.ofNat (c.toNat + 32) else c

/-- ASCII decimal digit. -/
def isDigitC (c : Char) : Bool := '0' ≤ c && c ≤ '9'

/-- Value of a decimal digit run. -/
def digitsVal (ds : List Char) : Nat := ds.foldl (fun a c => a * 10 + (c.toNat - 48)) 0

/-- `std::from_chars` for an integer type with range `[lo, hi]`, combined
with the full-consumption check of `str::detail::readNum`: an optional
minus sign then a nonempty digit run making up the whole token, value in
range (an out-of-range value is `errc::result_out_of_range`, hence
failure).  `from_chars` is standard-library code, modelled from its
documented behavior; it accepts no plus sign and no base prefix. -/
def readNumInt (lo hi : Int) (s : List Char) : Option Int :=
  match s with
  | '-' :: ds =>
    if ds ≠ [] ∧ ds.all isDigitC then
      let n : Int := -(digitsVal ds : Int)
      if lo ≤ n ∧ n ≤ hi then some n else none
    else none
  | ds =>
    if ds ≠ [] ∧ ds.all isDigitC then
      let n : Int := (digitsVal ds : Int)
      if lo ≤ n ∧ n ≤ hi then some n else none
    else none

/-- `std::from_chars` for a floating-point type (`chars_format::general`),
combined with the full-consumption check of `str::detail::readNum`.
Modelled from the documented behavior of the standard library (which is
outside this repository) on finite decimal inputs: the token denotes the
exact decimal value `(-1)^neg * mant * 10^exp10`, returned here as its
parts `(neg, mant, exp10)` and converted to the nearest representable
value by `fp32`/`fp64`. -/
def readDecParts (s : List Char) : Option (Bool × Nat × Int) :=
  let neg : Bool := match s with
    | '-' :: _ => true
    | _ => false
  let s1 := match s with
    | '-' :: r => r
    | r => r
  let ip := s1.takeWhile isDigitC
  let r1 := s1.dropWhile isDigitC
  let fp := match r1 with
    | '.' :: r => r.takeWhile isDigitC
    | _ => []
  let r2 := match r1 with
    | '.' :: r => r.dropWhile isDigitC
    | r => r
  if ip = [] ∧ fp = [] then none
  else
    let mant := digitsVal (ip ++ fp)
    let e0 : Int := -(fp.length : Int)
    match r2 with
    | [] => some (neg, mant, e0)
    | 'e' :: '-' :: r =>
      if r ≠ [] ∧ r.all isDigitC then some (neg, mant, e0 - digitsVal r) else none
    | 'e' :: '+' :: r =>
      if r ≠ [] ∧ r.all isDigitC then some (neg, mant, e0 + digitsVal r) else none
    | 'e' :: r =>
      if r ≠ [] ∧ r.all isDigitC then some (neg, mant, e0 + digitsVal r) else none
    | 'E' :: '-' :: r =>
      if r ≠ [] ∧ r.all isDigitC then some (neg, mant, e0 - digitsVal r) else none
    | 'E' :: '+' :: r =>
      if r ≠ [] ∧ r.all isDigitC then some (neg, mant, e0 + digitsVal r) else none
    | 'E' :: r =>
      if r ≠ [] ∧ r.all isDigitC then some (neg, mant, e0 + digitsVal r) else none
    | _ => none

/-- Number of binary digits of `n` (0 for 0); the first argument is fuel,
`natBits` supplies enough. -/
def bitsF : Nat → Nat → Nat
  | 0, _ => 0
  | f + 1, n => if n = 0 then 0 else bitsF f (n / 2) + 1

/-- Number of binary digits: `2 ^ (natBits n - 1) ≤ n < 2 ^ natBits n` for
positive `n`. -/
def natBits (n : Nat) : Nat := bitsF n n

/-- Is `2 ^ e ≤ num / den` (for positive `num`, `den`)? -/
def pow2LeRat (e : Int) (num den : Nat) : Bool :=
  if 0 ≤ e then den * 2 ^ e.toNat ≤ num else den ≤ num * 2 ^ (-e).toNat

/-- Floor of the base-2 logarithm of the positive rational `num / den`. -/
def ratLog2 (num den : Nat) : Int :=
  let l : Int := (natBits num : Int) - (natBits den : Int)
  if pow2LeRat l num den then l else l - 1

/-- IEEE-754 bit pattern of the positive rational `num / den` rounded to
nearest, ties to even, in a format with `mb` fraction bits and exponent
bias `bias`.  Covers the normal range, which is all this development
evaluates (part of the `from_chars` model: conversion of the decimal
value to the nearest representable value). -/
def fpBitsPos (mb bias : Nat) (num den : Nat) : Nat :=
  let e := ratLog2 num den
  let k : Int := (mb : Int) - e
  let sn := if 0 ≤ k then num * 2 ^ k.toNat else num
  let sd := if 0 ≤ k then den else den * 2 ^ (-k).toNat
  let q := sn / sd
  let r := sn % sd
  let m :=
    if 2 * r < sd then q
    else if sd < 2 * r then q + 1
    else if q % 2 = 0 then q else q + 1
  let e1 := if m = 2 ^ (mb + 1) then e + 1 else e
  let m1 := if m = 2 ^ (mb + 1) then 2 ^ mb else m
  (e1 + bias).toNat * 2 ^ mb + (m1 - 2 ^ mb)

/-- Bit pattern of the decimal value `(-1)^neg * mant * 10^exp10` rounded
to a format with `mb` fraction bits, bias `bias` and sign bit `sb`. -/
def fpOfDec (mb bias sb : Nat) (neg : Bool) (mant : Nat) (exp10 : Int) : Nat :=
  let sign := if neg then sb else 0
  if mant = 0 then sign
  else
    let num := if 0 ≤ exp10 then mant * 10 ^ exp10.toNat else mant
    let den := if 0 ≤ exp10 then 1 else 10 ^ (-exp10).toNat
    sign + fpBitsPos mb bias num den

/-- Bit pattern of a `float` (binary32). -/
def fp32 (neg : Bool) (mant : Nat) (exp10 : Int) : Nat :=
  fpOfDec 23 127 (2 ^ 31) neg mant exp10

/-- Bit pattern of a `double` (binary64). -/
def fp64 (neg : Bool) (mant : Nat) (exp10 : Int) : Nat :=
  fpOfDec 52 1023 (2 ^ 63) neg mant exp10

/-- `str::detail::readNum<float>` followed by storing the value (i.e. its
bit pattern) in the tag. -/
def readNumF32 (s : List Char) : Option Nat :=
  (readDecParts s).map (fun p => fp32 p.1 p.2.1 p.2.2)

/-- `str::detail::readNum<double>` followed by storing the value. -/
def readNumF64 (s : List Char) : Option Nat :=
  (readDecParts s).map (fun p => fp64 p.1 p.2.1 p.2.2)

/-- `str::detail::readNumWithSuffix` for an integral type: the token must
end with the (lowercased) suffix character, which is stripped before the
numeric parse.  (`s.back()` on an empty token never yields the suffix.) -/
def readNumSuffixInt (lo hi : Int) (suffix : Char) (s : List Char) : Option Int :=
  match s.getLast? with
  | none => none
  | some c => if toLowerC c = suffix then readNumInt lo hi s.dropLast else none

/-- `str::detail::read<int8_t>(string_view)`: `true`/`false`, else a
`b`-suffixed number. -/
def strReadI8 (s : List Char) : Option Int :=
  if s = [ 't', 'r', 'u', 'e' ] then some 1
  else if s = [ 'f', 'a', 'l', 's', 'e' ] then some 0
  else readNumSuffixInt (-128) 127 'b' s

/-- `str::detail::read<short>(string_view)`: an `s`-suffixed number. -/
def strReadI16 (s : List Char) : Option Int := readNumSuffixInt (-32768) 32767 's' s

/-- `str::detail::read<int>(string_view)`: an unsuffixed number. -/
def strReadI32 (s : List Char) : Option Int := readNumInt (-(2 ^ 31)) (2 ^ 31 - 1) s

/-- `str::detail::read<long long>(string_view)`: an `l`-suffixed number. -/
def strReadI64 (s : List Char) : Option Int :=
  readNumSuffixInt (-(2 ^ 63)) (2 ^ 63 - 1) 'l' s

/-- Escape mapping of `readQuotedString`. -/
def escMap : Char → Option Char
  | '\'' => some '\''
  | '\"' => some '\"'
  | '?' => some '?'
  | '\\' => some '\\'
  | 'a' => some '\x07'
  | 'b' => some '\x08'
  | 'f' => some '\x0c'
  | 'n' => some '\n'
  | 'r' => some '\r'
  | 't' => some '\t'
  | 'v' => some '\x0b'
  | _ => none

/-- Loop of `str::detail::readQuotedString` (opening mark already
consumed); `acc` holds the characters read so far, reversed. -/
def readQuotedGo (mark : Char) : Bool → List Char → List Char → Option (nbt.Str × List Char)
  | _, _, [] => none
  | true, acc, c :: s =>
    match escMap c with
    | none => none
    | some d => readQuotedGo mark false (d :: acc) s
  | false, acc, c :: s =>
    if c = '\\' then readQuotedGo mark true acc s
    else if c = mark then some (acc.reverse, s)
    else readQuotedGo mark false (c :: acc) s

/-- `str::detail::readQuotedString(istream&, mark)` with the mark still at
the head of the stream (the function ignores it first). -/
def readQuotedStr (mark : Char) (s : List Char) : Option (nbt.Str × List Char) :=
  readQuotedGo mark false [] (s.drop 1)

/-- `str::detail::read<string>(istream&)`: a quoted string if the next
character is a quote, else the unquoted run (possibly empty). -/
def readNameStr (s : List Char) : Option (nbt.Str × List Char) :=
  match s with
  | c :: _ =>
    if c = '\"' || c = '\'' then readQuotedStr c s
    else
      let p := readUnquoted s
      some (p.1, p.2)
  | [] => some ([], [])

/-- The default (bare token) branch of `str::detail::read<Tag>`: dispatch
on the lowercased last character, then `true`/`false`, then the decimal
point, else Int.  An empty token fails (`s.back()` on an empty string). -/
def bareClassify (tok : List Char) (r : List Char) : Option (nbt.Tag × List Char) :=
  match tok.getLast? with
  | none => none
  | some c =>
    let lc := toLowerC c
    if lc = 'b' then (readNumInt (-128) 127 tok.dropLast).map (fun v => (.byte v, r))
    else if lc = 's' then (readNumInt (-32768) 32767 tok.dropLast).map (fun v => (.short v, r))
    else if lc = 'l' then
      (readNumInt (-(2 ^ 63)) (2 ^ 63 - 1) tok.dropLast).map (fun v => (.long v, r))
    else if lc = 'f' then (readNumF32 tok.dropLast).map (fun v => (.float v, r))
    else if lc = 'd' then (readNumF64 tok.dropLast).map (fun v => (.double v, r))
    else if tok = [ 't', 'r', 'u', 'e' ] then some (.byte 1, r)
    else if tok = [ 'f', 'a', 'l', 's', 'e' ] then some (.byte 0, r)
    else if tok.contains '.' then (readNumF64 tok).map (fun v => (.double v, r))
    else (readNumInt (-(2 ^ 31)) (2 ^ 31 - 1) tok).map (fun v => (.int v, r))

/-- Loop of `str::detail::readArray<T>` (`elemP` is the element parse of
`read<T>(string_view)`); `acc` holds the elements read so far. -/
def readArrayGo (elemP : List Char → Option Int) : Nat → List Int → List Char →
    Option (List Int × List Char)
  | 0, _, _ => none
  | f + 1, acc, s =>
    let p := readUnquoted s
    match elemP p.1 with
    | none => none
    | some v =>
      match skipWs p.2 with
      | ']' :: r => some (acc ++ [v], r)
      | ',' :: r => readArrayGo elemP f (acc ++ [v]) (skipWs r)
      | _ => none

/-- `str::detail::readArray<T>` (stream positioned just after `"[B;"` and
the like). -/
def readArray (elemP : List Char → Option Int) (f : Nat) (s : List Char) :
    Option (List Int × List Char) :=
  match skipWs s with
  | ']' :: r => some ([], r)
  | s1 => readArrayGo elemP f [] s1

/-- The pending requests of the mutually recursive `str::detail` readers
(`read<Tag>`, `read<Compound>`, its entry loop, `readListOrArray`, and the
`readList` loop).  Merging them into one fuel-indexed step function keeps
the recursion structural, so that concrete parses evaluate. -/
inductive PReq where
  | tag (s : List Char)
  | cmpd (s : List Char)
  | pairs (acc : nbt.Fields) (s : List Char)
  | listArr (s : List Char)
  | listLoop (ety : nbt.TagType) (acc : nbt.TagList) (s : List Char)

/-- One step for each of the `str::detail` readers.
`.tag`: `read<Tag>` (dispatch on the peeked character; a bare token is
classified by `bareClassify`; an empty stream fails).
`.cmpd`: `read<Compound>` with the `'{'` still at the head (it is ignored
first); an immediate `'}'` yields the empty compound.
`.pairs`: the entry loop of `read<Compound>`: name, `':'`, value,
`insert`; `'}'` ends the compound, `','` continues.
`.listArr`: `readListOrArray` with the `'['` still at the head: `B`/`I`/`L`
followed by `';'` starts a typed array, else a list (an empty `[]` is the
End-kind placeholder list).
`.listLoop`: the loop of `readList<T>`: elements after the first; each
must have the list's element type (`tag.get<T>()` fails otherwise).
The fuel only bounds the recursion depth; `str.read` supplies more than
any stream can consume. -/
def pStep : Nat → PReq → Option (nbt.Tag × List Char)
  | 0, _ => none
  | f + 1, .tag s =>
    match s with
    | [] => none
    | c :: _ =>
      if c = '\"' || c = '\'' then (readQuotedStr c s).map (fun p => (.str p.1, p.2))
      else if c = '{' then pStep f (.cmpd s)
      else if c = '[' then pStep f (.listArr s)
      else
        let p := readUnquoted s
        bareClassify p.1 p.2
  | f + 1, .cmpd s =>
    match skipWs (s.drop 1) with
    | '}' :: r => some (.compound .fnil, r)
    | s1 => pStep f (.pairs .fnil s1)
  | f + 1, .pairs acc s => do
    let (n, s1) ← readNameStr s
    match skipWs s1 with
    | ':' :: s2 => do
      let (v, s3) ← pStep f (.tag (skipWs s2))
      let acc1 := fInsert acc n v
      match skipWs s3 with
      | '}' :: r => some (.compound acc1, r)
      | ',' :: s4 => pStep f (.pairs acc1 (skipWs s4))
      | _ => none
    | _ => none
  | f + 1, .listArr s =>
    match s.drop 1 with
    | 'B' :: rest =>
      (match rest with
      | ';' :: s3 => (readArray strReadI8 f s3).map (fun p => (.byteArr p.1, p.2))
      | _ => none)
    | 'I' :: rest =>
      (match rest with
      | ';' :: s3 => (readArray strReadI32 f s3).map (fun p => (.intArr p.1, p.2))
      | _ => none)
    | 'L' :: rest =>
      (match rest with
      | ';' :: s3 => (readArray strReadI64 f s3).map (fun p => (.longArr p.1, p.2))
      | _ => none)
    | s1 =>
      match skipWs s1 with
      | ']' :: r => some (.list .End .nil, r)
      | s2 => do
        let (t, s3) ← pStep f (.tag s2)
        pStep f (.listLoop (tagTy t) (.cons t .nil) s3)
  | f + 1, .listLoop ety acc s =>
    match skipWs s with
    | ']' :: r => some (.list ety acc, r)
    | ',' :: s2 => do
      let (t, s3) ← pStep f (.tag (skipWs s2))
      if tagTy t = ety then pStep f (.listLoop ety (tlSnoc acc t) s3) else none
    | _ => none

/-- `str::detail::read<Tag>(istream&)` at a given fuel. -/
def pTag (f : Nat) (s : List Char) : Option (nbt.Tag × List Char) :=
  pStep f (.tag s)

/-- `nbt::str::read(istream&)` (via `read<Tag>`): skip whitespace, parse a
tag; the fuel `2 * s.length + 2` exceeds what the recursion can consume
(every fuel decrement past the first is paid for by consumed input). -/
def read (s : List Char) : Option (nbt.Tag × List Char) :=
  pTag (2 * s.length + 2) (skipWs s)

end nbt.str

namespace nbt

/-- `std::get_if<T>(variant*)` on a possibly null `Tag` pointer: a null
pointer or the wrong alternative yields null (the payload pointer is
abstracted as the tag holding it). -/
def tagGetIf (r : Option Tag) (ty : TagType) : Option Tag :=
  match r with
  | none => none
  | some t => if tagTy t = ty then some t else none

/-- `Tag::get_if<Compound>()` projected to the compound's entries. -/
def tagGetIfCompound (r : Option Tag) : Option Fields :=
  match r with
  | some (.compound fs) => some fs
  | _ => none

/-- `Compound::get_if(string)`: tolerates a null receiver (the explicit
`this == nullptr` check), then `find`; a missing name yields null. -/
def compoundGetIf (r : Option Fields) (n : Str) : Option Tag :=
  match r with
  | none => none
  | some fs => fFind fs n

/-- `Tag::get_if(string name)`: `get_if<Compound>()->get_if(name)`. -/
def tagGetIfName (r : Option Tag) (n : Str) : Option Tag :=
  compoundGetIf (tagGetIfCompound r) n

/-- `Tag::get_if<T>(string name)`: `get_if(name)->get_if<T>()` (the null
inner result is tolerated by `std::get_if` on a null pointer). -/
def tagGetIfTypeName (r : Option Tag) (ty : TagType) (n : Str) : Option Tag :=
  tagGetIf (tagGetIfName r n) ty

/-- `Tag::get_if<T>(size_t i)` for the three array kinds: a null receiver,
the wrong alternative, or an out-of-bounds index yields null. -/
def arrGetIf (r : Option Tag) (ty : TagType) (i : Nat) : Option Int :=
  match tagGetIf r ty with
  | some (.byteArr v) => v.get? i
  | some (.intArr v) => v.get? i
  | some (.longArr v) => v.get? i
  | _ => none

/-- A well-formed document whose only outsized part is a 2^15-byte string
payload (the smallest string the reader cannot get back). -/
def bigStrDoc : NBT := ⟨[], .str (List.replicate 32768 'a')⟩

end nbt

namespace mca

/-- A decompression strategy that always fails (never consulted in the
situations below). -/
def noDecomp : Decompressor := fun _ _ => none

/-- A region file image whose slot-0 location word has sector offset 1 and
sector count 1, all other header words zero. -/
def c4bytes : List Nat := 0 :: 0 :: 1 :: 1 :: List.replicate 8188 0

end mca

namespace nbt.bin

theorem takeExact_append (l r : List Nat) : takeExact l.length (l ++ r) = some (l, r) := by
  induction l with
  | nil => rfl
  | cons b t ih => simp [takeExact, ih]

theorem toBytesLE_length (w v : Nat) : (toBytesLE w v).length = w := by
  induction w generalizing v with
  | zero => rfl
  | succ w ih => simp [toBytesLE, ih]

theorem encBytes_length (e : Endian) (w v : Nat) : (encBytes e w v).length = w := by
  cases e <;> simp [encBytes, toBytesLE_length]

theorem fromBytes_toBytes (w v : Nat) : fromBytesLE (toBytesLE w v) = v % 2 ^ (8 * w) := by
  induction w generalizing v with
  | zero => simp [toBytesLE, fromBytesLE, Nat.mod_one]
  | succ w ih =>
    have hpow : 2 ^ (8 * (w + 1)) = 256 * 2 ^ (8 * w) := by ring
    rw [toBytesLE, fromBytesLE, ih, hpow, Nat.mod_mul]

theorem decBytes_encBytes (e : Endian) (w v : Nat) (h : v < 2 ^ (8 * w)) :
    decBytes e (encBytes e w v) = v := by
  cases e <;>
    simp [decBytes, encBytes, List.reverse_reverse, fromBytes_toBytes, Nat.mod_eq_of_lt h]

theorem toUnsigned_lt (w : Nat) (v : Int) : toUnsigned w v < 2 ^ (8 * w) := by
  have hM : (0 : Int) < 2 ^ (8 * w) := by positivity
  have h0 := Int.emod_nonneg v (ne_of_gt hM)
  have h1 := Int.emod_lt_of_pos v hM
  have ha : ((toUnsigned w v : Nat) : Int) = v % 2 ^ (8 * w) := by
    unfold toUnsigned
    exact Int.toNat_of_nonneg h0
  have hMA : ((2 ^ (8 * w) : Nat) : Int) = (2 : Int) ^ (8 * w) := by push_cast; ring
  omega

theorem toUnsigned_ofNat (w : Nat) (n : Nat) (h : n < 2 ^ (8 * w)) :
    toUnsigned w (n : Int) = n := by
  unfold toUnsigned
  have hMA : ((2 ^ (8 * w) : Nat) : Int) = (2 : Int) ^ (8 * w) := by push_cast; ring
  have : (n : Int) % 2 ^ (8 * w) = (n : Int) := by
    apply Int.emod_eq_of_lt (by positivity)
    omega
  omega

theorem toSigned_toUnsigned (w : Nat) (v : Int) (hw : w ≠ 0)
    (h1 : -(2 ^ (8 * w - 1) : Int) ≤ v) (h2 : v < 2 ^ (8 * w - 1)) :
    toSigned w (toUnsigned w v) = v := by
  have hsplit : (2 : Int) ^ (8 * w) = 2 ^ (8 * w - 1) * 2 := by
    rw [← pow_succ]
    congr 1
    omega
  have hK : (0 : Int) < 2 ^ (8 * w - 1) := by positivity
  have hM : (0 : Int) < 2 ^ (8 * w) := by positivity
  have h0 := Int.emod_nonneg v (ne_of_gt hM)
  have ha : ((toUnsigned w v : Nat) : Int) = v % 2 ^ (8 * w) := by
    unfold toUnsigned
    exact Int.toNat_of_nonneg h0
  have hcase : v % 2 ^ (8 * w) = v ∨ v % 2 ^ (8 * w) = v + 2 ^ (8 * w) := by
    rcases le_or_lt 0 v with h | h
    · exact Or.inl (Int.emod_eq_of_lt h (by omega))
    · refine Or.inr ?_
      rw [← Int.add_emod_self]
      exact Int.emod_eq_of_lt (by omega) (by omega)
  have hKA : ((2 ^ (8 * w - 1) : Nat) : Int) = (2 : Int) ^ (8 * w - 1) := by push_cast; ring
  have hMA : ((2 ^ (8 * w) : Nat) : Int) = (2 : Int) ^ (8 * w) := by push_cast; ring
  unfold toSigned
  split <;> omega

theorem readIntegral_writeIntegral (e : Endian) (w : Nat) (v : Int) (rest : List Nat)
    (hw : w ≠ 0) (h1 : -(2 ^ (8 * w - 1) : Int) ≤ v) (h2 : v < 2 ^ (8 * w - 1)) :
    readIntegral e w (writeIntegral e w v ++ rest) = some (v, rest) := by
  unfold readIntegral writeIntegral
  have ht := takeExact_append (encBytes e w (toUnsigned w v)) rest
  rw [encBytes_length] at ht
  rw [ht]
  simp [decBytes_encBytes e w _ (toUnsigned_lt w v), toSigned_toUnsigned w v hw h1 h2]

theorem readBits_encBytes (e : Endian) (w : Nat) (b : Nat) (rest : List Nat)
    (h : b < 2 ^ (8 * w)) :
    readBits e w (encBytes e w b ++ rest) = some (b, rest) := by
  unfold readBits
  have ht := takeExact_append (encBytes e w b) rest
  rw [encBytes_length] at ht
  rw [ht]
  simp [decBytes_encBytes e w b h]

end nbt.bin

namespace nbt.bin

theorem stringSizeOfShort_ofNat (n : Nat) (h : n < 2 ^ 64) :
    stringSizeOfShort (n : Int) = n := by
  unfold stringSizeOfShort
  have hMA : ((2 ^ 64 : Nat) : Int) = (2 : Int) ^ 64 := by norm_cast
  have : (n : Int) % 2 ^ 64 = (n : Int) := by
    apply Int.emod_eq_of_lt (by positivity)
    omega
  omega

theorem toSigned_two_small (n : Nat) (h : n < 32768) : toSigned 2 (n : Nat) = (n : Int) := by
  unfold toSigned
  rw [if_pos (by omega)]

theorem readStr_writeStrB (e : Endian) (s : Str) (rest : List Nat)
    (hlen : s.length < 32768) :
    readStr e (writeStrB e s ++ rest) = some (s, rest) := by
  unfold readStr writeStrB
  have hmod : s.length % 65536 = s.length := Nat.mod_eq_of_lt (by omega)
  rw [hmod, List.append_assoc]
  unfold readIntegral
  have ht := takeExact_append (encBytes e 2 s.length) (s.map Char.toNat ++ rest)
  rw [encBytes_length] at ht
  rw [ht]
  have hdec : decBytes e (encBytes e 2 s.length) = s.length :=
    decBytes_encBytes e 2 s.length (by omega)
  have hsg : toSigned 2 (decBytes e (encBytes e 2 s.length)) = (s.length : Int) := by
    rw [hdec]; exact toSigned_two_small s.length hlen
  simp only [Option.map_some', Option.bind_eq_bind, Option.some_bind, hsg]
  rw [stringSizeOfShort_ofNat s.length (by omega)]
  have ht2 := takeExact_append (s.map Char.toNat) rest
  rw [List.length_map] at ht2
  rw [ht2]
  simp only [Option.some_bind, List.map_map]
  have : s.map (Char.ofNat ∘ Char.toNat) = s :=
    List.map_congr_left (fun c _ => Char.ofNat_toNat c) |>.trans (List.map_id s)
  rw [this]

theorem readScalarElems_write (e : Endian) (w : Nat) (v : List Int) (rest : List Nat)
    (hw : w ≠ 0) (hr : ∀ x ∈ v, -(2 ^ (8 * w - 1) : Int) ≤ x ∧ x < 2 ^ (8 * w - 1)) :
    readScalarElems e w v.length ((v.map (writeIntegral e w)).flatten ++ rest) =
      some (v, rest) := by
  induction v with
  | nil => rfl
  | cons x t ih =>
    simp only [List.map_cons, List.flatten_cons, List.append_assoc, List.length_cons]
    rw [readScalarElems]
    rw [readIntegral_writeIntegral e w x _ hw (hr x (by simp)).1 (hr x (by simp)).2]
    simp only [Option.bind_eq_bind, Option.some_bind]
    rw [ih (fun x hx => hr x (by simp [hx]))]
    rfl

theorem readScalarVec_write (e : Endian) (w : Nat) (v : List Int) (rest : List Nat)
    (hw : w ≠ 0) (hr : ∀ x ∈ v, -(2 ^ (8 * w - 1) : Int) ≤ x ∧ x < 2 ^ (8 * w - 1))
    (hlen : v.length < 2 ^ 31) :
    readScalarVec e w (writeIntegral e 4 (v.length : Int) ++
      ((v.map (writeIntegral e w)).flatten ++ rest)) = some (v, rest) := by
  unfold readScalarVec
  rw [readIntegral_writeIntegral e 4 (v.length : Int) _ (by decide) (by omega) (by omega)]
  simp only [Option.bind_eq_bind, Option.some_bind]
  rw [if_neg (by omega)]
  rw [Int.toNat_natCast]
  exact readScalarElems_write e w v rest hw hr

end nbt.bin

namespace nbt

/-- The keys of a field list, in order. -/
def fKeys : Fields → List Str
  | .fnil => []
  | .fcons n _ fs => n :: fKeys fs
termination_by structural fs => fs

/-- Induction principle for `Fields` alone (the mutual recursor has three
motives; entry values are not recursed into here). -/
theorem fieldsInd (P : Fields → Prop) (fnil : P .fnil)
    (fcons : ∀ n v fs, P fs → P (.fcons n v fs)) : ∀ fs, P fs
  | .fnil => fnil
  | .fcons n v fs => fcons n v fs (fieldsInd P fnil fcons fs)

/-- Induction principle for `TagList` alone. -/
theorem tagListInd (P : TagList → Prop) (nil : P .nil)
    (cons : ∀ t ts, P ts → P (.cons t ts)) : ∀ ts, P ts
  | .nil => nil
  | .cons t ts => cons t ts (tagListInd P nil cons ts)

theorem strLt_irrefl (x : Str) : strLt x x = false := by
  induction x with
  | nil => rfl
  | cons a y ih => simp [strLt, ih]

theorem strLt_asymm (x y : Str) (h : strLt x y = true) : strLt y x = false := by
  induction x generalizing y with
  | nil =>
    cases y with
    | nil => exact absurd h (by simp [strLt])
    | cons b z => simp [strLt]
  | cons a x ih =>
    cases y with
    | nil => exact absurd h (by simp [strLt])
    | cons b z =>
      simp only [strLt] at h ⊢
      rcases Nat.lt_trichotomy a.toNat b.toNat with hab | hab | hab
      · simp [hab, Nat.lt_asymm hab]
      · simp only [hab, Nat.lt_irrefl, if_false] at h ⊢
        exact ih z h
      · simp [hab, Nat.lt_asymm hab] at h

theorem strLt_ne (x y : Str) (h : strLt x y = true) : x ≠ y := by
  intro hxy
  rw [hxy, strLt_irrefl] at h
  cases h

theorem fAllLt_iff (acc : Fields) (n : Str) :
    fAllLt acc n = true ↔ ∀ k ∈ fKeys acc, strLt k n = true := by
  induction acc using fieldsInd with
  | fnil => simp [fAllLt, fKeys]
  | fcons k w fs ih => simp [fAllLt, fKeys, ih]

theorem fAllGt_iff (n : Str) (fs : Fields) :
    fAllGt n fs = true ↔ ∀ m ∈ fKeys fs, strLt n m = true := by
  induction fs using fieldsInd with
  | fnil => simp [fAllGt, fKeys]
  | fcons k w gs ih => simp [fAllGt, fKeys, ih]

theorem fAppend_fnil (acc : Fields) : fAppend acc .fnil = acc := by
  induction acc using fieldsInd with
  | fnil => rfl
  | fcons k w fs ih => simp [fAppend, ih]

theorem fAppend_assoc (a b c : Fields) :
    fAppend (fAppend a b) c = fAppend a (fAppend b c) := by
  induction a using fieldsInd with
  | fnil => rfl
  | fcons k w fs ih => simp [fAppend, ih]

theorem fKeys_append (a b : Fields) : fKeys (fAppend a b) = fKeys a ++ fKeys b := by
  induction a using fieldsInd with
  | fnil => rfl
  | fcons k w fs ih => simp [fAppend, fKeys, ih]

theorem fInsert_allLt (acc : Fields) (n : Str) (v : Tag) (h : fAllLt acc n = true) :
    fInsert acc n v = fAppend acc (.fcons n v .fnil) := by
  induction acc using fieldsInd with
  | fnil => rfl
  | fcons k w fs ih =>
    simp only [fAllLt, Bool.and_eq_true] at h
    unfold fInsert
    rw [if_neg (by simp [strLt_asymm k n h.1]), if_neg (Ne.symm (strLt_ne k n h.1))]
    rw [fAppend, ih h.2]

theorem ffold_append (fs : Fields) : ∀ acc, fSorted fs = true →
    (∀ k ∈ fKeys acc, ∀ m ∈ fKeys fs, strLt k m = true) →
    ffold acc fs = fAppend acc fs := by
  induction fs using fieldsInd with
  | fnil => intro acc _ _; rw [ffold, fAppend_fnil]
  | fcons n v fs ih =>
    intro acc hs hcross
    simp only [fSorted, Bool.and_eq_true] at hs
    rw [ffold]
    rw [fInsert_allLt acc n v (by
      rw [fAllLt_iff]
      intro k hk
      exact hcross k hk n (by simp [fKeys]))]
    rw [ih (fAppend acc (.fcons n v .fnil)) hs.2 (by
      intro k hk m hm
      rw [fKeys_append] at hk
      rcases List.mem_append.mp hk with h | h
      · exact hcross k h m (by simp [fKeys, hm])
      · simp only [fKeys, List.mem_singleton, List.mem_cons, List.not_mem_nil,
          or_false] at h
        rw [h]
        exact (fAllGt_iff n fs).mp hs.1 m hm)]
    rw [fAppend_assoc]
    rfl

theorem ffold_fnil_sorted (fs : Fields) (h : fSorted fs = true) : ffold .fnil fs = fs := by
  rw [ffold_append fs .fnil h (by intro k hk; simp [fKeys] at hk)]
  rfl

theorem fInsert_dup (n : Str) (v1 v2 : Tag) :
    fInsert (.fcons n v1 .fnil) n v2 = .fcons n v1 .fnil := by
  unfold fInsert
  rw [if_neg (by simp [strLt_irrefl]), if_pos rfl]

theorem tagTy_end_iff (t : Tag) : tagTy t = .End ↔ t = .tEnd := by
  cases t <;> simp [tagTy]

theorem tagTypeOfNat_typeId (ty : TagType) : tagTypeOfNat (typeId ty) = some ty := by
  cases ty <;> rfl

theorem typeId_ne_zero (ty : TagType) (h : ty ≠ .End) : typeId ty ≠ 0 := by
  cases ty <;> simp_all [typeId]

theorem wfL_end_replicate (ts : TagList) (h : wfL .End ts = true) :
    replicateEnd (lenL ts) = ts := by
  induction ts using tagListInd with
  | nil => rfl
  | cons t ts ih =>
    simp only [wfL, Bool.and_eq_true, decide_eq_true_eq] at h
    have ht : t = .tEnd := (tagTy_end_iff t).mp h.1.1
    subst ht
    simp [lenL, replicateEnd, ih h.2]

theorem writeElems_end (e : bin.Endian) (ts : TagList) (h : wfL .End ts = true) :
    bin.writeElems e ts = [] := by
  induction ts using tagListInd with
  | nil => rfl
  | cons t ts ih =>
    simp only [wfL, Bool.and_eq_true, decide_eq_true_eq] at h
    have ht : t = .tEnd := (tagTy_end_iff t).mp h.1.1
    subst ht
    simp [bin.writeElems, bin.writePayload, ih h.2]

end nbt

namespace nbt.bin

theorem writeIntegral_length (e : Endian) (w : Nat) (v : Int) :
    (writeIntegral e w v).length = w := encBytes_length e w _

theorem writeStrB_length (e : Endian) (s : Str) :
    (writeStrB e s).length = 2 + s.length := by
  simp [writeStrB, encBytes_length]

theorem writeFields_length_pos (e : Endian) (fs : Fields) :
    1 ≤ (writeFields e fs).length := by
  cases fs <;> simp [writeFields]

end nbt.bin

namespace nbt.bin

mutual
/-- Reading back a written payload restores the tag, for well-formed,
size-bounded trees, with any fuel exceeding the written length. -/
theorem readPayload_writePayload (e : Endian) (t : Tag) (f : Nat) (rest : List Nat)
    (hwf : wfT t = true) (hb : bT t = true)
    (hf : (writePayload e t).length < f) :
    readPayload e f (typeId (tagTy t)) (writePayload e t ++ rest) = some (t, rest) := by
  obtain ⟨f1, rfl⟩ : ∃ f1, f = f1 + 1 := ⟨f - 1, by omega⟩
  cases t with
  | tEnd =>
    rw [show typeId (tagTy Tag.tEnd) = 0 from rfl, readPayload]
    simp only [writePayload, List.nil_append]
  | byte v =>
    simp only [wfT, decide_eq_true_eq] at hwf
    rw [show typeId (tagTy (Tag.byte v)) = 1 from rfl, readPayload]
    simp only [writePayload]
    rw [readIntegral_writeIntegral e 1 v rest (by decide) (by omega) (by omega)]
    rfl
  | short v =>
    simp only [wfT, decide_eq_true_eq] at hwf
    rw [show typeId (tagTy (Tag.short v)) = 2 from rfl, readPayload]
    simp only [writePayload]
    rw [readIntegral_writeIntegral e 2 v rest (by decide) (by omega) (by omega)]
    rfl
  | int v =>
    simp only [wfT, decide_eq_true_eq] at hwf
    rw [show typeId (tagTy (Tag.int v)) = 3 from rfl, readPayload]
    simp only [writePayload]
    rw [readIntegral_writeIntegral e 4 v rest (by decide) (by omega) (by omega)]
    rfl
  | long v =>
    simp only [wfT, decide_eq_true_eq] at hwf
    rw [show typeId (tagTy (Tag.long v)) = 4 from rfl, readPayload]
    simp only [writePayload]
    rw [readIntegral_writeIntegral e 8 v rest (by decide) (by omega) (by omega)]
    rfl
  | float b =>
    simp only [wfT, decide_eq_true_eq] at hwf
    rw [show typeId (tagTy (Tag.float b)) = 5 from rfl, readPayload]
    simp only [writePayload]
    rw [readBits_encBytes e 4 b rest (by omega)]
    rfl
  | double b =>
    simp only [wfT, decide_eq_true_eq] at hwf
    rw [show typeId (tagTy (Tag.double b)) = 6 from rfl, readPayload]
    simp only [writePayload]
    rw [readBits_encBytes e 8 b rest (by omega)]
    rfl
  | byteArr v =>
    simp only [wfT, List.all_eq_true, decide_eq_true_eq] at hwf
    simp only [bT, decide_eq_true_eq] at hb
    rw [show typeId (tagTy (Tag.byteArr v)) = 7 from rfl, readPayload]
    simp only [writePayload]
    rw [List.append_assoc]
    rw [readScalarVec_write e 1 v rest (by decide)
      (fun x hx => by have h := hwf x hx; exact ⟨by omega, by omega⟩) hb]
    rfl
  | str s =>
    simp only [bT, decide_eq_true_eq] at hb
    rw [show typeId (tagTy (Tag.str s)) = 8 from rfl, readPayload]
    simp only [writePayload]
    rw [readStr_writeStrB e s rest hb]
    rfl
  | list ety ts =>
    simp only [wfT] at hwf
    simp only [bT, Bool.and_eq_true, decide_eq_true_eq] at hb
    rw [show typeId (tagTy (Tag.list ety ts)) = 9 from rfl, readPayload]
    simp only [writePayload, List.cons_append, readByteRaw, Option.bind_eq_bind,
      Option.some_bind, tagTypeOfNat_typeId]
    rw [List.append_assoc]
    rw [readIntegral_writeIntegral e 4 (lenL ts : Int) _ (by decide) (by omega)
      (by omega)]
    simp only [Option.some_bind]
    rw [if_neg (by omega), Int.toNat_natCast]
    rw [readElems_writeElems e ety ts f1 rest hwf hb.2 (by
      simp only [writePayload, List.cons_append, List.length_cons, List.length_append,
        writeIntegral_length] at hf
      omega)]
    rfl
  | compound fs =>
    simp only [wfT, Bool.and_eq_true] at hwf
    simp only [bT] at hb
    rw [show typeId (tagTy (Tag.compound fs)) = 10 from rfl, readPayload]
    simp only [writePayload]
    rw [readFields_writeFields e fs f1 .fnil rest hwf.2 hb (by
      simp only [writePayload] at hf
      omega)]
    rw [ffold_fnil_sorted fs hwf.1]
    rfl
  | intArr v =>
    simp only [wfT, List.all_eq_true, decide_eq_true_eq] at hwf
    simp only [bT, decide_eq_true_eq] at hb
    rw [show typeId (tagTy (Tag.intArr v)) = 11 from rfl, readPayload]
    simp only [writePayload]
    rw [List.append_assoc]
    rw [readScalarVec_write e 4 v rest (by decide)
      (fun x hx => by have h := hwf x hx; exact ⟨by omega, by omega⟩) hb]
    rfl
  | longArr v =>
    simp only [wfT, List.all_eq_true, decide_eq_true_eq] at hwf
    simp only [bT, decide_eq_true_eq] at hb
    rw [show typeId (tagTy (Tag.longArr v)) = 12 from rfl, readPayload]
    simp only [writePayload]
    rw [List.append_assoc]
    rw [readScalarVec_write e 8 v rest (by decide)
      (fun x hx => by have h := hwf x hx; exact ⟨by omega, by omega⟩) hb]
    rfl

/-- Reading back written list elements restores them. -/
theorem readElems_writeElems (e : Endian) (ety : TagType) (ts : TagList) (f : Nat)
    (rest : List Nat) (hwf : wfL ety ts = true) (hb : bL ts = true)
    (hf : (writeElems e ts).length < f) :
    readElems e f ety (lenL ts) (writeElems e ts ++ rest) = some (ts, rest) := by
  by_cases hEnd : ety = .End
  · subst hEnd
    rw [readElems.eq_def]
    dsimp only
    rw [if_pos rfl, writeElems_end e ts hwf, wfL_end_replicate ts hwf]
    rfl
  · cases ts with
    | nil =>
      rw [show lenL TagList.nil = 0 from rfl, readElems, if_neg hEnd]
      rfl
    | cons t ts2 =>
      simp only [wfL, Bool.and_eq_true, decide_eq_true_eq] at hwf
      obtain ⟨⟨hty, hwt⟩, hwts⟩ := hwf
      simp only [bL, Bool.and_eq_true] at hb
      subst hty
      rw [show lenL (TagList.cons t ts2) = lenL ts2 + 1 from rfl, readElems, if_neg hEnd]
      simp only [writeElems, List.append_assoc]
      rw [readPayload_writePayload e t f _ hwt hb.1 (by
        simp only [writeElems, List.length_append] at hf
        omega)]
      simp only [Option.bind_eq_bind, Option.some_bind]
      rw [readElems_writeElems e (tagTy t) ts2 f rest hwts hb.2 (by
        simp only [writeElems, List.length_append] at hf
        omega)]
      rfl

/-- Reading back written compound entries folds the inserts over them. -/
theorem readFields_writeFields (e : Endian) (fs : Fields) (f : Nat) (acc : Fields)
    (rest : List Nat) (hwf : wfF fs = true) (hb : bF fs = true)
    (hf : (writeFields e fs).length ≤ f) :
    readFields e f acc (writeFields e fs ++ rest) = some (ffold acc fs, rest) := by
  obtain ⟨f1, rfl⟩ : ∃ f1, f = f1 + 1 := ⟨f - 1, by
    have := writeFields_length_pos e fs
    omega⟩
  cases fs with
  | fnil =>
    rw [readFields]
    rfl
  | fcons n v fs2 =>
    simp only [wfF, Bool.and_eq_true, decide_eq_true_eq] at hwf
    obtain ⟨⟨⟨hok, hne⟩, hwv⟩, hwfs⟩ := hwf
    simp only [bF, Bool.and_eq_true, decide_eq_true_eq] at hb
    obtain ⟨⟨hn, hbv⟩, hbfs⟩ := hb
    rw [readFields]
    simp only [writeFields, List.cons_append, readByteRaw, Option.bind_eq_bind,
      Option.some_bind]
    rw [if_neg (typeId_ne_zero (tagTy v) hne)]
    rw [List.append_assoc, List.append_assoc]
    rw [readStr_writeStrB e n _ hn]
    simp only [Option.some_bind]
    rw [readPayload_writePayload e v f1 _ hwv hbv (by
      have h1 := writeStrB_length e n
      have h2 := writeFields_length_pos e fs2
      simp only [writeFields, List.cons_append, List.length_cons, List.length_append,
        h1] at hf
      omega)]
    simp only [Option.some_bind]
    rw [readFields_writeFields e fs2 f1 (fInsert acc n v) rest hwfs hbfs (by
      have h1 := writeStrB_length e n
      simp only [writeFields, List.cons_append, List.length_cons, List.length_append,
        h1] at hf
      omega)]
    rfl
end

end nbt.bin

namespace nbt.bin

/-- Top-level binary round-trip for well-formed, size-bounded documents. -/
theorem read_write (e : Endian) (doc : NBT)
    (hwf : wfNBT doc = true) (hb : bNBT doc = true) :
    read e (write e doc) = some (doc, []) := by
  obtain ⟨name, tag⟩ := doc
  simp only [wfNBT, bNBT, Bool.and_eq_true, decide_eq_true_eq] at hwf hb
  unfold read write
  simp only [readByteRaw, Option.bind_eq_bind, Option.some_bind]
  rw [readStr_writeStrB e name _ hb.1]
  simp only [Option.some_bind]
  rw [show writePayload e tag = writePayload e tag ++ [] from (List.append_nil _).symm]
  rw [readPayload_writePayload e tag _ [] hwf.2 hb.2 (by
    simp only [List.length_cons, List.length_append, writeStrB_length, List.length_nil]
    omega)]
  rfl

end nbt.bin

namespace nbt.bin

theorem takeExact_eq_none (l : List Nat) : ∀ n, l.length < n → takeExact n l = none := by
  induction l with
  | nil =>
    intro n h
    cases n with
    | zero => omega
    | succ m => rfl
  | cons b t ih =>
    intro n h
    cases n with
    | zero => omega
    | succ m =>
      rw [takeExact, ih m (by simpa using h)]
      rfl

end nbt.bin

namespace mca

theorem get?_isSome_iff {α : Type} (l : List α) (n : Nat) :
    (l.get? n).isSome = true ↔ n < l.length := by
  rw [List.get?_eq_getElem?]
  constructor
  · intro h
    by_contra hn
    rw [List.getElem?_eq_none (by omega)] at h
    simp at h
  · intro h
    rw [List.getElem?_eq_getElem h]
    rfl

end mca

open nbt mca

/-- Claim C7: the SNBT parser classifies bare value tokens by their
trailing suffix character: `5b` is Byte 5, `5s` Short 5, `5` Int 5,
`5l`/`5L` Long 5, `5f` Float 5.0 (IEEE bits 0x40A00000), `5d` and `5.0`
Double 5.0 (IEEE bits 0x4014000000000000), and the bare tokens `true` and
`false` are Byte 1 and Byte 0. -/
theorem c7_literal_classification :
    str.pTag 1 "5b".data = some (.byte 5, []) ∧
    str.pTag 1 "5s".data = some (.short 5, []) ∧
    str.pTag 1 "5".data = some (.int 5, []) ∧
    str.pTag 1 "5l".data = some (.long 5, []) ∧
    str.pTag 1 "5L".data = some (.long 5, []) ∧
    str.pTag 1 "5f".data = some (.float 0x40A00000, []) ∧
    str.pTag 1 "5d".data = some (.double 0x4014000000000000, []) ∧
    str.pTag 1 "5.0".data = some (.double 0x4014000000000000, []) ∧
    str.pTag 1 "true".data = some (.byte 1, []) ∧
    str.pTag 1 "false".data = some (.byte 0, []) :=
  ⟨rfl, rfl, rfl, rfl, rfl, rfl, rfl, rfl, rfl, rfl⟩

/-- Claim C6 counterexample: inside a `[B;...]` literal an unsuffixed
numeric token is rejected and a `b`-suffixed one is accepted (and likewise
`l` for `[L;...]`), the opposite of the claim. -/
theorem c6_counterexample :
    str.pTag 3 "[B;1]".data = none ∧
    str.pTag 3 "[B;1b]".data = some (.byteArr [1], []) ∧
    str.pTag 3 "[L;1]".data = none ∧
    str.pTag 3 "[L;1l]".data = some (.longArr [1], []) :=
  ⟨rfl, rfl, rfl, rfl⟩

/-- Claim C10: the binary string writer emits a 2-byte length field whose
value is the string length mod 2^16 followed by all bytes of the string;
for lengths below 2^16 the field is the length itself, for longer strings
the field disagrees with the number of payload bytes written. -/
theorem c10_string_length_field (e : bin.Endian) (s t : Str)
    (h1 : s.length < 65536) (h2 : 65536 ≤ t.length) :
    bin.writeStrB e s = bin.encBytes e 2 s.length ++ s.map Char.toNat ∧
    (bin.writeStrB e s).length = 2 + s.length ∧
    bin.writeStrB e t = bin.encBytes e 2 (t.length % 65536) ++ t.map Char.toNat ∧
    (bin.writeStrB e t).length = 2 + t.length ∧
    t.length % 65536 ≠ t.length := by
  refine ⟨?_, bin.writeStrB_length e s, rfl, bin.writeStrB_length e t, ?_⟩
  · unfold bin.writeStrB
    rw [Nat.mod_eq_of_lt h1]
  · have := Nat.mod_lt t.length (show 0 < 65536 by omega)
    omega

/-- Claim C10 witness: instance at a 1-byte string and a 2^16-byte string. -/
theorem c10_string_length_field_witness :
    bin.writeStrB .big ['a'] = bin.encBytes .big 2 (List.length ['a']) ++ ['a'].map Char.toNat ∧
    (bin.writeStrB .big ['a']).length = 2 + List.length ['a'] ∧
    bin.writeStrB .big (List.replicate 65536 'a') =
      bin.encBytes .big 2 ((List.replicate 65536 'a').length % 65536) ++
        (List.replicate 65536 'a').map Char.toNat ∧
    (bin.writeStrB .big (List.replicate 65536 'a')).length =
      2 + (List.replicate 65536 'a').length ∧
    (List.replicate 65536 'a').length % 65536 ≠ (List.replicate 65536 'a').length :=
  c10_string_length_field .big ['a'] (List.replicate 65536 'a') (by simp)
    (by rw [List.length_replicate])

/-- Claim C9: `Region::get(x, z)` is `at(x + 32 * z)`: it succeeds exactly
when the linear index is below 1024, with no individual bound checks on
`x` or `z`, so distinct coordinate pairs with equal linear index alias the
same slot: `get(33, 0)` is `get(1, 1)`. -/
theorem c9_region_get_linear (r : Region) (x z x' z' : Nat)
    (h : r.slots.length = 1024) (hxz : x + 32 * z = x' + 32 * z') :
    ((r.get x z).isSome = true ↔ x + 32 * z < 1024) ∧
    r.get x z = r.get x' z' ∧
    r.get 33 0 = r.get 1 1 ∧
    (r.get 33 0).isSome = true := by
  refine ⟨?_, ?_, ?_, ?_⟩
  · rw [Region.get, get?_isSome_iff, h]
  · rw [Region.get, Region.get, hxz]
  · show r.slots.get? (33 + 32 * 0) = r.slots.get? (1 + 32 * 1)
    norm_num
  · rw [Region.get, get?_isSome_iff, h]
    norm_num

/-- Claim C9 witness: instance on an all-empty region. -/
theorem c9_region_get_linear_witness :
    (((Region.mk (List.replicate 1024 none)).get 33 0).isSome = true ↔ 33 + 32 * 0 < 1024) ∧
    (Region.mk (List.replicate 1024 none)).get 33 0 =
      (Region.mk (List.replicate 1024 none)).get 1 1 ∧
    (Region.mk (List.replicate 1024 none)).get 33 0 =
      (Region.mk (List.replicate 1024 none)).get 1 1 ∧
    ((Region.mk (List.replicate 1024 none)).get 33 0).isSome = true := by
  have h := c9_region_get_linear (Region.mk (List.replicate 1024 none)) 33 0 1 1
    (by rw [List.length_replicate]) (by norm_num)
  exact ⟨h.1, h.2.1, h.2.2.1, h.2.2.2⟩

/-- Claim C5 (amended): when the location word of slot `(x, z)` is all
zero (sector offset 0 and sector count 0), the single-chunk read does NOT
report a benign absence: it fails with the error "the chunk doesn't exist
in the region file".  Only the whole-region read treats such a slot as a
silently absent chunk. -/
theorem c5_zero_location_chunk_read_fails (s : List Nat) (d : Decompressor) (x z : Nat)
    (tw : Nat × Nat × Nat × Nat)
    (h : read4At s (4 * (x + 32 * z)) = some (0, 0, 0, 0)) :
    readChunk s d x z = .error "the chunk doesn't exist in the region file" ∧
    readRegionSlot s d (0, 0, 0, 0) tw = .ok none := by
  constructor
  · unfold readChunk
    dsimp only
    rw [h]
    rfl
  · rfl

/-- Claim C5 witness: instance on the 4-byte stream `[0,0,0,0]` at slot
`(0, 0)`. -/
theorem c5_zero_location_chunk_read_fails_witness :
    read4At [0, 0, 0, 0] (4 * (0 + 32 * 0)) = some (0, 0, 0, 0) ∧
    readChunk [0, 0, 0, 0] noDecomp 0 0 =
      .error "the chunk doesn't exist in the region file" ∧
    readRegionSlot [0, 0, 0, 0] noDecomp (0, 0, 0, 0) (0, 0, 0, 0) = .ok none :=
  ⟨rfl, c5_zero_location_chunk_read_fails [0, 0, 0, 0] noDecomp 0 0 (0, 0, 0, 0) rfl⟩

/-- Claim C5 counterexample: on the concrete region stream `[0,0,0,0]`
with an all-zero location word for slot `(0, 0)`, the single-chunk read
fails (it returns an error, not a benign absence), contrary to the claim
that "the read call does not fail". -/
theorem c5_counterexample :
    readChunk [0, 0, 0, 0] noDecomp 0 0 =
      .error "the chunk doesn't exist in the region file" := rfl

/-- If the length field reads back as `v` and the stream after it is too
short for the sign-extended size of `v`, the string read fails. -/
theorem readStr_none_of_takeExact (e : bin.Endian) (s : List Nat) (v : Int) (s1 : List Nat)
    (h1 : bin.readIntegral e 2 s = some (v, s1))
    (h2 : bin.takeExact (bin.stringSizeOfShort v) s1 = none) :
    bin.readStr e s = none := by
  unfold bin.readStr
  rw [h1]
  simp only [Option.bind_eq_bind, Option.some_bind]
  rw [h2]
  rfl

/-- Claim C2: the binary string reader's 2-byte length field is NOT read
as an unsigned 16-bit count: `size_t size = read<short>(in)` sign-extends
the signed 16-bit value, so the field `0x8000` becomes the size
`2^64 - 32768` rather than `32768`, and decoding a record with length
field `0x8000` followed by exactly 32768 payload bytes fails instead of
reading those 32768 bytes (while a small length field still reads its
count of bytes). -/
theorem c2_length_field_sign_extended :
    bin.toSigned 2 32768 = -32768 ∧
    bin.stringSizeOfShort (bin.toSigned 2 32768) = 2 ^ 64 - 32768 ∧
    2 ^ 64 - 32768 ≠ 32768 ∧
    bin.readStr .big (bin.encBytes .big 2 32768 ++ List.replicate 32768 97) = none ∧
    bin.readStr .big (bin.encBytes .big 2 3 ++ [97, 98, 99]) = some (['a', 'b', 'c'], []) := by
  refine ⟨by decide, by decide, by decide, ?_, rfl⟩
  have h1 : bin.readIntegral .big 2 (bin.encBytes .big 2 32768 ++ List.replicate 32768 97)
      = some (-32768, List.replicate 32768 97) := rfl
  exact readStr_none_of_takeExact .big _ (-32768) (List.replicate 32768 97) h1
    (bin.takeExact_eq_none (List.replicate 32768 97) (bin.stringSizeOfShort (-32768))
      (by rw [List.length_replicate]; decide))


namespace nbt.str

theorem digit_toLowerC (c : Char) (h : isDigitC c = true) : toLowerC c = c := by
  simp only [isDigitC, Bool.and_eq_true, decide_eq_true_eq] at h
  unfold toLowerC
  rw [if_neg]
  simp only [Bool.and_eq_true, decide_eq_true_eq, not_and]
  intro hA
  exact absurd (le_trans hA h.2) (by decide)

theorem digits_getLast (ds : List Char) (h1 : ds ≠ []) (h2 : ds.all isDigitC = true) :
    ∃ c, ds.getLast? = some c ∧ isDigitC c = true := by
  cases hl : ds.getLast? with
  | none => exact absurd (List.getLast?_eq_none_iff.mp hl) h1
  | some c =>
    refine ⟨c, rfl, ?_⟩
    have := List.all_eq_true.mp h2 c (List.mem_of_mem_getLast? hl)
    simpa using this

theorem readNumInt_digits (lo hi : Int) (ds : List Char) (h1 : ds ≠ [])
    (h2 : ds.all isDigitC = true) (hlo : lo ≤ 0) (hhi : ((digitsVal ds : Nat) : Int) ≤ hi) :
    readNumInt lo hi ds = some ((digitsVal ds : Nat) : Int) := by
  rw [readNumInt.eq_def]
  split
  · rename_i t
    simp only [List.all_cons, Bool.and_eq_true] at h2
    exact absurd h2.1 (by decide)
  · rw [if_pos ⟨h1, h2⟩]
    rw [if_pos ⟨by omega, hhi⟩]

theorem readNumInt_bad_token (lo hi : Int) (s : List Char)
    (hhead : ∀ t, s ≠ '-' :: t) (hall : s.all isDigitC = false) :
    readNumInt lo hi s = none := by
  rw [readNumInt.eq_def]
  split
  · rename_i t
    exact absurd rfl (hhead t)
  · rw [if_neg]
    intro hc
    rw [hall] at hc
    exact Bool.false_ne_true hc.2

end nbt.str

/-- Claim C6 (amended): inside `[B;...]` and `[L;...]` array literals the
element parser is the same suffix-demanding reader as for scalar byte/long
tokens: a digit token REQUIRES the `b` (resp. `l`) suffix and is rejected
without it, while the Int element parser accepts the bare digit token and
rejects a `b`-suffixed one — the opposite of the claim for B and L
arrays. -/
theorem c6_array_elements_need_suffix (ds : List Char)
    (h1 : ds ≠ []) (h2 : ds.all str.isDigitC = true)
    (h3 : str.digitsVal ds ≤ 127) :
    str.strReadI8 (ds ++ ['b']) = some ((str.digitsVal ds : Nat) : Int) ∧
    str.strReadI8 ds = none ∧
    str.strReadI32 ds = some ((str.digitsVal ds : Nat) : Int) ∧
    str.strReadI32 (ds ++ ['b']) = none ∧
    str.strReadI64 (ds ++ ['l']) = some ((str.digitsVal ds : Nat) : Int) ∧
    str.strReadI64 ds = none := by
  obtain ⟨c, hc, hdig⟩ := str.digits_getLast ds h1 h2
  refine ⟨?_, ?_, ?_, ?_, ?_, ?_⟩
  · have hne1 : ds ++ ['b'] ≠ [ 't', 'r', 'u', 'e' ] := by
      intro he
      have := congrArg List.getLast? he
      rw [List.getLast?_concat] at this
      exact absurd this (by decide)
    have hne2 : ds ++ ['b'] ≠ [ 'f', 'a', 'l', 's', 'e' ] := by
      intro he
      have := congrArg List.getLast? he
      rw [List.getLast?_concat] at this
      exact absurd this (by decide)
    unfold str.strReadI8
    rw [if_neg hne1, if_neg hne2]
    unfold str.readNumSuffixInt
    rw [List.getLast?_concat]
    dsimp only
    have hb : str.toLowerC 'b' = 'b' := by decide
    rw [if_pos hb, List.dropLast_concat]
    exact str.readNumInt_digits _ _ ds h1 h2 (by omega) (by omega)
  · have hne1 : ds ≠ [ 't', 'r', 'u', 'e' ] := by
      intro he
      rw [he] at h2
      exact absurd h2 (by decide)
    have hne2 : ds ≠ [ 'f', 'a', 'l', 's', 'e' ] := by
      intro he
      rw [he] at h2
      exact absurd h2 (by decide)
    unfold str.strReadI8
    rw [if_neg hne1, if_neg hne2]
    unfold str.readNumSuffixInt
    rw [hc]
    dsimp only
    rw [str.digit_toLowerC c hdig, if_neg]
    intro he
    rw [he] at hdig
    exact absurd hdig (by decide)
  · exact str.readNumInt_digits _ _ ds h1 h2 (by omega) (by omega)
  · apply str.readNumInt_bad_token
    · intro t he
      cases ds with
      | nil => exact h1 rfl
      | cons a as =>
        have ha : str.isDigitC a = true := by
          simp only [List.all_cons, Bool.and_eq_true] at h2
          exact h2.1
        have haeq : a = '-' := by
          have := congrArg (fun l => l.head?) he
          simpa using this
        rw [haeq] at ha
        exact absurd ha (by decide)
    · rw [List.all_append]
      simp only [List.all_cons, List.all_nil]
      rw [show str.isDigitC 'b' = false from by decide]
      simp
  · unfold str.strReadI64 str.readNumSuffixInt
    rw [List.getLast?_concat]
    dsimp only
    have hl : str.toLowerC 'l' = 'l' := by decide
    rw [if_pos hl, List.dropLast_concat]
    exact str.readNumInt_digits _ _ ds h1 h2 (by omega) (by omega)
  · unfold str.strReadI64 str.readNumSuffixInt
    rw [hc]
    dsimp only
    rw [str.digit_toLowerC c hdig, if_neg]
    intro he
    rw [he] at hdig
    exact absurd hdig (by decide)

/-- Claim C6 witness: instance at the digit token `['1']`. -/
theorem c6_array_elements_need_suffix_witness :
    str.strReadI8 (['1'] ++ ['b']) = some ((str.digitsVal ['1'] : Nat) : Int) ∧
    str.strReadI8 ['1'] = none ∧
    str.strReadI32 ['1'] = some ((str.digitsVal ['1'] : Nat) : Int) ∧
    str.strReadI32 (['1'] ++ ['b']) = none ∧
    str.strReadI64 (['1'] ++ ['l']) = some ((str.digitsVal ['1'] : Nat) : Int) ∧
    str.strReadI64 ['1'] = none :=
  c6_array_elements_need_suffix ['1'] (by decide) (by decide) (by decide)

namespace mca

open nbt.bin

theorem words4_replicate (n : Nat) :
    words4 (List.replicate (4 * n) 0) = List.replicate n (0, 0, 0, 0) := by
  induction n with
  | zero => rfl
  | succ m ih =>
    have h4 : 4 * (m + 1) = 4 + 4 * m := by omega
    rw [h4, List.replicate_add]
    show words4 (0 :: 0 :: 0 :: 0 :: List.replicate (4 * m) 0)
        = (0, 0, 0, 0) :: List.replicate m (0, 0, 0, 0)
    rw [words4, ih]

theorem zip_replicate_same {α β : Type} (a : α) (b : β) (n : Nat) :
    (List.replicate n a).zip (List.replicate n b) = List.replicate n (a, b) := by
  induction n with
  | zero => rfl
  | succ m ih => simp [List.replicate, ih]

theorem mapExcept_replicate {α β : Type} (g : α → Except String β) (a : α) (b : β)
    (h : g a = .ok b) (n : Nat) :
    mapExcept g (List.replicate n a) = .ok (List.replicate n b) := by
  induction n with
  | zero => rfl
  | succ m ih =>
    rw [List.replicate, mapExcept, h, ih]
    rfl

theorem c4_region_eval :
    readRegion c4bytes noDecomp = .ok ⟨none :: List.replicate 1023 none⟩ := by
  have hsplit : c4bytes =
      (0 :: 0 :: 1 :: 1 :: List.replicate 4092 0) ++ List.replicate 4096 0 := by
    unfold c4bytes
    have h8188 : (8188 : Nat) = 4092 + 4096 := by omega
    rw [h8188, List.replicate_add]
    simp only [List.cons_append]
  have h1 : takeExact 4096 c4bytes
      = some (0 :: 0 :: 1 :: 1 :: List.replicate 4092 0, List.replicate 4096 0) := by
    rw [hsplit]
    have hl : (0 :: 0 :: 1 :: 1 :: List.replicate 4092 0).length = 4096 := by
      rw [List.length_cons, List.length_cons, List.length_cons, List.length_cons,
        List.length_replicate]
    rw [← hl]
    exact takeExact_append _ _
  have h2 : takeExact 4096 (List.replicate 4096 0)
      = some (List.replicate 4096 0, []) := by
    have h := takeExact_append (List.replicate 4096 0) []
    rw [List.append_nil, List.length_replicate] at h
    exact h
  have hw1 : words4 (0 :: 0 :: 1 :: 1 :: List.replicate 4092 0)
      = (0, 0, 1, 1) :: List.replicate 1023 (0, 0, 0, 0) := by
    rw [words4]
    have h4092 : (4092 : Nat) = 4 * 1023 := by omega
    rw [h4092, words4_replicate]
  have hw2 : words4 (List.replicate 4096 0) = List.replicate 1024 (0, 0, 0, 0) := by
    have h4096 : (4096 : Nat) = 4 * 1024 := by omega
    rw [h4096, words4_replicate]
  have hz : ((0, 0, 1, 1) :: List.replicate 1023 (0, 0, 0, 0)).zip
        (List.replicate 1024 (0, 0, 0, 0))
      = ((0, 0, 1, 1), (0, 0, 0, 0)) ::
        List.replicate 1023 ((0, 0, 0, 0), (0, 0, 0, 0)) := by
    show ((0, 0, 1, 1) :: List.replicate 1023 (0, 0, 0, 0)).zip
        ((0, 0, 0, 0) :: List.replicate 1023 (0, 0, 0, 0)) = _
    rw [List.zip_cons_cons, zip_replicate_same]
  have hm : mapExcept (fun p => readRegionSlot c4bytes noDecomp p.1 p.2)
        (((0, 0, 1, 1), (0, 0, 0, 0)) ::
          List.replicate 1023 ((0, 0, 0, 0), (0, 0, 0, 0)))
      = .ok (none :: List.replicate 1023 none) := by
    have hslot1 : readRegionSlot c4bytes noDecomp (0, 0, 1, 1) (0, 0, 0, 0)
        = .ok none := rfl
    rw [mapExcept]
    dsimp only
    rw [hslot1]
    dsimp only
    rw [mapExcept_replicate
      (fun p : (Nat × Nat × Nat × Nat) × (Nat × Nat × Nat × Nat) =>
        readRegionSlot c4bytes noDecomp p.1 p.2)
      ((0, 0, 0, 0), (0, 0, 0, 0)) none rfl 1023]
  unfold readRegion
  rw [h1]
  dsimp only
  rw [h2]
  dsimp only
  rw [hw1, hw2, hz]
  rw [hm]

end mca

/-- Claim C4 (amended): for a location word with sector offset 0 or 1 but
nonzero sector count, only the single-chunk read fails (with the error
"sector overlaps with header"); the whole-region read does NOT fail — its
per-slot condition `offset >= 2 && count > 0` is false, so it silently
leaves the slot absent. -/
theorem c4_low_offset_divergence (s : List Nat) (d : Decompressor) (x z b2 b3 : Nat)
    (tw : Nat × Nat × Nat × Nat)
    (h : read4At s (4 * (x + 32 * z)) = some (0, 0, b2, b3))
    (hb2 : b2 < 2) (hb3 : 0 < b3) :
    readChunk s d x z = .error "sector overlaps with header" ∧
    readRegionSlot s d (0, 0, b2, b3) tw = .ok none := by
  constructor
  · unfold readChunk
    dsimp only
    rw [h]
    dsimp only [getLocation]
    rw [if_neg (by omega), if_pos (by omega)]
  · unfold readRegionSlot
    dsimp only [getLocation]
    rw [if_neg (by omega)]

/-- Claim C4 witness: instance on the 8192-byte region stream whose slot-0
location word is `(0,0,1,1)` (offset 1, count 1). -/
theorem c4_low_offset_divergence_witness :
    read4At c4bytes (4 * (0 + 32 * 0)) = some (0, 0, 1, 1) ∧
    readChunk c4bytes noDecomp 0 0 = .error "sector overlaps with header" ∧
    readRegionSlot c4bytes noDecomp (0, 0, 1, 1) (0, 0, 0, 0) = .ok none :=
  ⟨rfl, c4_low_offset_divergence c4bytes noDecomp 0 0 1 1 (0, 0, 0, 0) rfl
    (by decide) (by decide)⟩

/-- Claim C4 counterexample: on the concrete 8192-byte region file whose
slot-0 location word has offset 1 and count 1, the single-chunk read fails
as claimed, but the whole-region read succeeds (returning a region with
every slot absent) — refuting the claim that both reads fail. -/
theorem c4_counterexample :
    readChunk c4bytes noDecomp 0 0 = .error "sector overlaps with header" ∧
    readRegion c4bytes noDecomp = .ok ⟨none :: List.replicate 1023 none⟩ :=
  ⟨rfl, c4_region_eval⟩

/-- Claim C8: every `get_if` step returns absent instead of failing — on a
null receiver (each operation maps `none` to `none`), on a kind mismatch,
on a missing name, and on an out-of-bounds index — and a chain continues
through an absent intermediate result, yielding absent exactly when some
step misses. -/
theorem c8_get_if_chain (t u : nbt.Tag) (fs : nbt.Fields) (v : List Int) (n : nbt.Str)
    (ty : nbt.TagType) (i : Nat) (r1 r2 : Option nbt.Tag)
    (h1 : nbt.tagTy t ≠ .Compound) (h2 : nbt.fFind fs n = none) (h3 : v.length ≤ i)
    (h4 : nbt.tagTy t ≠ ty) (h5 : nbt.tagGetIfName r1 n = some u)
    (h6 : nbt.tagGetIfName r2 n = none) :
    nbt.tagGetIf none ty = none ∧
    nbt.tagGetIfCompound none = none ∧
    nbt.compoundGetIf none n = none ∧
    nbt.tagGetIfName none n = none ∧
    nbt.tagGetIfTypeName none ty n = none ∧
    nbt.arrGetIf none ty i = none ∧
    nbt.tagGetIf (some t) ty = none ∧
    nbt.tagGetIfName (some t) n = none ∧
    nbt.tagGetIfName (some (.compound fs)) n = none ∧
    nbt.arrGetIf (some (.byteArr v)) .ByteArray i = none ∧
    nbt.tagGetIfTypeName r1 ty n = nbt.tagGetIf (some u) ty ∧
    nbt.tagGetIfTypeName r2 ty n = none := by
  refine ⟨rfl, rfl, rfl, rfl, rfl, ?_, ?_, ?_, ?_, ?_, ?_, ?_⟩
  · unfold nbt.arrGetIf
    rfl
  · unfold nbt.tagGetIf
    dsimp only
    rw [if_neg h4]
  · have hcmp : nbt.tagGetIfCompound (some t) = none := by
      cases t <;> first | rfl | exact absurd rfl h1
    unfold nbt.tagGetIfName
    rw [hcmp]
    rfl
  · show nbt.fFind fs n = none
    exact h2
  · show (v.get? i : Option Int) = none
    exact List.get?_len_le h3
  · unfold nbt.tagGetIfTypeName
    rw [h5]
  · unfold nbt.tagGetIfTypeName
    rw [h6]
    rfl

/-- Claim C8 witness: instance on a one-entry compound and a byte tag. -/
theorem c8_get_if_chain_witness :
    nbt.tagGetIf none .Int = none ∧
    nbt.tagGetIfCompound none = none ∧
    nbt.compoundGetIf none ['a'] = none ∧
    nbt.tagGetIfName none ['a'] = none ∧
    nbt.tagGetIfTypeName none .Int ['a'] = none ∧
    nbt.arrGetIf none .Int 0 = none ∧
    nbt.tagGetIf (some (.byte 5)) .Int = none ∧
    nbt.tagGetIfName (some (.byte 5)) ['a'] = none ∧
    nbt.tagGetIfName (some (.compound .fnil)) ['a'] = none ∧
    nbt.arrGetIf (some (.byteArr [])) .ByteArray 0 = none ∧
    nbt.tagGetIfTypeName (some (.compound (.fcons ['a'] (.byte 1) .fnil))) .Int ['a']
      = nbt.tagGetIf (some (.byte 1)) .Int ∧
    nbt.tagGetIfTypeName (some (.byte 0)) .Int ['a'] = none :=
  c8_get_if_chain (.byte 5) (.byte 1) .fnil [] ['a'] .Int 0
    (some (.compound (.fcons ['a'] (.byte 1) .fnil))) (some (.byte 0))
    (by rw [show nbt.tagTy (.byte 5) = .Byte from rfl]; decide)
    rfl (by decide)
    (by rw [show nbt.tagTy (.byte 5) = .Byte from rfl]; decide)
    rfl rfl

/-- If the tag id and the name read back and the payload read fails, the
document read fails. -/
theorem read_none_of_payload (e : bin.Endian) (s : List Nat) (tid : Nat) (s1 : List Nat)
    (n : Str) (s2 : List Nat)
    (h1 : bin.readByteRaw s = some (tid, s1)) (h2 : bin.readStr e s1 = some (n, s2))
    (h3 : bin.readPayload e (s.length + 1) tid s2 = none) :
    bin.read e s = none := by
  unfold bin.read
  rw [h1]
  simp only [Option.bind_eq_bind, Option.some_bind]
  rw [h2]
  simp only [Option.some_bind]
  rw [h3]
  rfl

/-- Claim C1 (amended): the binary round-trip `read (write doc) = doc`
holds at both byte orders for every well-formed document within the
format's size bounds: every string shorter than 2^15 bytes and every
list/array count below 2^31.  (Without the string bound the property
fails: see the 2^15-byte string counterexample.) -/
theorem c1_binary_roundtrip (e : bin.Endian) (doc : NBT)
    (hwf : wfNBT doc = true) (hb : bNBT doc = true) :
    bin.read e (bin.write e doc) = some (doc, []) :=
  bin.read_write e doc hwf hb

/-- Claim C1 witness: instance at the document with name "a" and Byte 1
payload, at big endianness. -/
theorem c1_binary_roundtrip_witness :
    wfNBT ⟨['a'], .byte 1⟩ = true ∧ bNBT ⟨['a'], .byte 1⟩ = true ∧
    bin.read .big (bin.write .big ⟨['a'], .byte 1⟩) = some (⟨['a'], .byte 1⟩, []) :=
  ⟨rfl, rfl, c1_binary_roundtrip .big ⟨['a'], .byte 1⟩ rfl rfl⟩

/-- A payload read at String tag id fails when the string read fails. -/
theorem readPayload_str_none (e : bin.Endian) (f : Nat) (s : List Nat)
    (h : bin.readStr e s = none) :
    bin.readPayload e (f + 1) 8 s = none := by
  rw [bin.readPayload]
  rw [h]
  rfl

/-- Claim C1 counterexample: the well-formed in-memory document whose
payload is a 2^15-character string does not survive the round trip — the
writer emits its length field as 0x8000, the reader sign-extends it, and
the decode fails. -/
theorem c1_counterexample :
    bin.read .big (bin.write .big bigStrDoc) = none := by
  have hpay : bin.writePayload .big (.str (List.replicate 32768 'a'))
      = bin.encBytes .big 2 32768 ++ List.replicate 32768 97 := by
    rw [bin.writePayload]
    unfold bin.writeStrB
    rw [List.length_replicate, List.map_replicate]
    rw [Nat.mod_eq_of_lt (show 32768 < 65536 by omega)]
    rfl
  have hw : bin.write .big bigStrDoc
      = 8 :: 0 :: 0 :: (bin.encBytes .big 2 32768 ++ List.replicate 32768 97) := by
    show (8 : Nat) :: (bin.writeStrB .big [] ++
        bin.writePayload .big (.str (List.replicate 32768 'a')))
      = 8 :: 0 :: 0 :: (bin.encBytes .big 2 32768 ++ List.replicate 32768 97)
    rw [hpay]
    rfl
  have hstr : bin.readStr .big (bin.encBytes .big 2 32768 ++ List.replicate 32768 97)
      = none := by
    have h1 : bin.readIntegral .big 2 (bin.encBytes .big 2 32768 ++ List.replicate 32768 97)
        = some (-32768, List.replicate 32768 97) := rfl
    exact readStr_none_of_takeExact .big _ (-32768) (List.replicate 32768 97) h1
      (bin.takeExact_eq_none (List.replicate 32768 97) (bin.stringSizeOfShort (-32768))
        (by rw [List.length_replicate]; decide))
  rw [hw]
  exact read_none_of_payload .big
    (8 :: 0 :: 0 :: (bin.encBytes .big 2 32768 ++ List.replicate 32768 97)) 8
    (0 :: 0 :: (bin.encBytes .big 2 32768 ++ List.replicate 32768 97)) []
    (bin.encBytes .big 2 32768 ++ List.replicate 32768 97) rfl rfl
    (readPayload_str_none .big _ _ hstr)

namespace nbt.str

theorem allowed_ne (c d : Char) (h : isAllowedInUnquotedString c = true)
    (hd : isAllowedInUnquotedString d = false) : c ≠ d := by
  intro he
  rw [he, hd] at h
  exact Bool.false_ne_true h

theorem allowed_not_space (c : Char) (h : isAllowedInUnquotedString c = true) :
    isSpaceC c = false := by
  by_contra hs
  have hs' : isSpaceC c = true := by
    cases hb : isSpaceC c with
    | false => exact absurd hb hs
    | true => rfl
  simp only [isSpaceC, Bool.or_eq_true, decide_eq_true_eq] at hs'
  rcases hs' with ((((h1 | h1) | h1) | h1) | h1) | h1 <;>
    (rw [h1] at h; exact absurd h (by decide))

theorem skipWs_cons_no (c : Char) (s : List Char) (h : isSpaceC c = false) :
    skipWs (c :: s) = c :: s := by
  rw [skipWs, if_neg]
  rw [h]
  exact Bool.false_ne_true

theorem readUnquoted_exact (n : List Char) (d : Char) (Y : List Char)
    (hall : n.all isAllowedInUnquotedString = true)
    (hd : isAllowedInUnquotedString d = false) :
    readUnquoted (n ++ d :: Y) = (n, d :: Y) := by
  induction n with
  | nil =>
    rw [List.nil_append, readUnquoted, if_neg]
    rw [hd]
    exact Bool.false_ne_true
  | cons c n' ih =>
    simp only [List.all_cons, Bool.and_eq_true] at hall
    rw [List.cons_append, readUnquoted, if_pos hall.1, ih hall.2]

theorem readNameStr_unquoted (n : List Char) (d : Char) (Y : List Char)
    (hn : n ≠ []) (hall : n.all isAllowedInUnquotedString = true)
    (hd : isAllowedInUnquotedString d = false) :
    readNameStr (n ++ d :: Y) = some (n, d :: Y) := by
  cases n with
  | nil => exact absurd rfl hn
  | cons c n' =>
    simp only [List.all_cons, Bool.and_eq_true] at hall
    rw [List.cons_append, readNameStr, if_neg]
    · rw [show c :: (n' ++ d :: Y) = (c :: n') ++ d :: Y from rfl]
      rw [readUnquoted_exact (c :: n') d Y (by simp [hall.1, hall.2]) hd]
    · have h1 : c ≠ '\"' := allowed_ne c _ hall.1 (by decide)
      have h2 : c ≠ '\'' := allowed_ne c _ hall.1 (by decide)
      simp [h1, h2]

end nbt.str

namespace nbt.str

theorem pStep_cmpd_step (f : Nat) (c : Char) (s : List Char)
    (hc : isSpaceC c = false) (hbrace : c ≠ '}') :
    pStep (f + 1) (.cmpd ('{' :: c :: s)) = pStep f (.pairs .fnil (c :: s)) := by
  rw [pStep]
  dsimp only [List.drop]
  rw [skipWs_cons_no c s hc]
  split
  · rename_i r heq
    injection heq with h1 h2
    exact absurd h1 hbrace
  · rfl

theorem pStep_pairs_comma (f : Nat) (acc : nbt.Fields) (n : nbt.Str)
    (t u : List Char) (v : nbt.Tag)
    (hn : n ≠ []) (hall : n.all isAllowedInUnquotedString = true)
    (H : pStep f (.tag (skipWs t)) = some (v, ',' :: u)) :
    pStep (f + 1) (.pairs acc (n ++ ':' :: t))
      = pStep f (.pairs (nbt.fInsert acc n v) (skipWs u)) := by
  rw [pStep]
  rw [readNameStr_unquoted n ':' t hn hall (by decide)]
  simp only [Option.bind_eq_bind, Option.some_bind]
  rw [skipWs_cons_no ':' t (by decide)]
  show ((pStep f (PReq.tag (skipWs t))).bind fun a =>
      match skipWs a.2 with
      | '}' :: r => some (nbt.Tag.compound (nbt.fInsert acc n a.1), r)
      | ',' :: s4 => pStep f (PReq.pairs (nbt.fInsert acc n a.1) (skipWs s4))
      | _ => none) = _
  rw [H]
  simp only [Option.some_bind]
  rw [skipWs_cons_no ',' u (by decide)]
  rfl

theorem pStep_pairs_close (f : Nat) (acc : nbt.Fields) (n : nbt.Str)
    (t u : List Char) (v : nbt.Tag)
    (hn : n ≠ []) (hall : n.all isAllowedInUnquotedString = true)
    (H : pStep f (.tag (skipWs t)) = some (v, '}' :: u)) :
    pStep (f + 1) (.pairs acc (n ++ ':' :: t))
      = some (.compound (nbt.fInsert acc n v), u) := by
  rw [pStep]
  rw [readNameStr_unquoted n ':' t hn hall (by decide)]
  simp only [Option.bind_eq_bind, Option.some_bind]
  rw [skipWs_cons_no ':' t (by decide)]
  show ((pStep f (PReq.tag (skipWs t))).bind fun a =>
      match skipWs a.2 with
      | '}' :: r => some (nbt.Tag.compound (nbt.fInsert acc n a.1), r)
      | ',' :: s4 => pStep f (PReq.pairs (nbt.fInsert acc n a.1) (skipWs s4))
      | _ => none) = _
  rw [H]
  simp only [Option.some_bind]
  rw [skipWs_cons_no '}' u (by decide)]
  rfl

end nbt.str

/-- The bytes a compound entry (tag id, name, payload) occupies in the
binary stream, as written by `io::write<Compound>`. -/
def entryBytes (e : bin.Endian) (n : Str) (v : nbt.Tag) : List Nat :=
  typeId (tagTy v) :: (bin.writeStrB e n ++ bin.writePayload e v)

/-- Reading one encoded compound entry inserts it into the accumulator and
continues with one unit of fuel consumed. -/
theorem readFields_entry (e : bin.Endian) (f : Nat) (acc : nbt.Fields) (n : Str)
    (v : nbt.Tag) (rest : List Nat)
    (hnl : n.length < 32768) (hne : tagTy v ≠ .End)
    (hwv : wfT v = true) (hbv : bT v = true)
    (hf : (bin.writePayload e v).length < f) :
    bin.readFields e (f + 1) acc (entryBytes e n v ++ rest)
      = bin.readFields e f (fInsert acc n v) rest := by
  rw [bin.readFields]
  simp only [entryBytes, List.cons_append, bin.readByteRaw, Option.bind_eq_bind,
    Option.some_bind]
  rw [if_neg (typeId_ne_zero (tagTy v) hne)]
  rw [List.append_assoc]
  rw [bin.readStr_writeStrB e n _ hnl]
  simp only [Option.some_bind]
  rw [bin.readPayload_writePayload e v f _ hwv hbv hf]
  simp only [Option.some_bind]

/-- The End byte terminates a compound read, returning the accumulator. -/
theorem readFields_term (e : bin.Endian) (f : Nat) (acc : nbt.Fields) (rest : List Nat) :
    bin.readFields e (f + 1) acc (0 :: rest) = some (acc, rest) := by
  rw [bin.readFields]
  simp only [bin.readByteRaw, Option.bind_eq_bind, Option.some_bind]
  rw [if_pos trivial]

/-- Claim C3: decoding a Compound with two same-named entries keeps only
the first-seen value and silently discards the later one, in the binary
decoder (two consecutive entries named `n` before the End byte) and in the
SNBT text decoder (`{n:t1,n:t2}`) alike. -/
theorem c3_duplicate_name_keeps_first (e : bin.Endian) (f g : Nat) (n : Str)
    (v1 v2 : nbt.Tag) (rest : List Nat) (t1 t2 : List Char)
    (hnl : n.length < 32768)
    (hne1 : tagTy v1 ≠ .End) (hwf1 : wfT v1 = true) (hb1 : bT v1 = true)
    (hne2 : tagTy v2 ≠ .End) (hwf2 : wfT v2 = true) (hb2 : bT v2 = true)
    (hf1 : (bin.writePayload e v1).length ≤ f)
    (hf2 : (bin.writePayload e v2).length < f)
    (hn : n ≠ []) (hall : n.all str.isAllowedInUnquotedString = true)
    (H1 : str.pStep (g + 1)
        (.tag (str.skipWs (t1 ++ ',' :: (n ++ ':' :: (t2 ++ ['}'])))))
      = some (v1, ',' :: (n ++ ':' :: (t2 ++ ['}']))))
    (H2 : str.pStep g (.tag (str.skipWs (t2 ++ ['}']))) = some (v2, '}' :: [])) :
    bin.readFields e (f + 2) .fnil
        (entryBytes e n v1 ++ (entryBytes e n v2 ++ (0 :: rest)))
      = some (.fcons n v1 .fnil, rest) ∧
    str.pTag (g + 4)
        ('{' :: (n ++ ':' :: (t1 ++ ',' :: (n ++ ':' :: (t2 ++ ['}'])))))
      = some (.compound (.fcons n v1 .fnil), []) := by
  constructor
  · rw [readFields_entry e (f + 1) .fnil n v1 _ hnl hne1 hwf1 hb1 (by omega)]
    rw [show fInsert .fnil n v1 = .fcons n v1 .fnil from rfl]
    rw [readFields_entry e f (.fcons n v1 .fnil) n v2 _ hnl hne2 hwf2 hb2 hf2]
    rw [fInsert_dup n v1 v2]
    obtain ⟨f1, rfl⟩ : ∃ f1, f = f1 + 1 := ⟨f - 1, by omega⟩
    exact readFields_term e f1 _ rest
  · cases n with
    | nil => exact absurd rfl hn
    | cons c0 n' =>
      have hc0 : str.isAllowedInUnquotedString c0 = true := by
        simp only [List.all_cons, Bool.and_eq_true] at hall
        exact hall.1
      have hall' : (c0 :: n').all str.isAllowedInUnquotedString = true := hall
      rw [show str.pTag (g + 4)
            ('{' :: ((c0 :: n') ++ ':' ::
              (t1 ++ ',' :: ((c0 :: n') ++ ':' :: (t2 ++ ['}'])))))
          = str.pStep (g + 3)
            (.cmpd ('{' :: c0 ::
              (n' ++ ':' :: (t1 ++ ',' :: ((c0 :: n') ++ ':' :: (t2 ++ ['}']))))))
        from rfl]
      rw [str.pStep_cmpd_step (g + 2) c0 _ (str.allowed_not_space c0 hc0)
        (str.allowed_ne c0 '}' hc0 (by decide))]
      rw [show (c0 :: (n' ++ ':' :: (t1 ++ ',' :: ((c0 :: n') ++ ':' :: (t2 ++ ['}'])))))
          = ((c0 :: n') ++ ':' :: (t1 ++ ',' :: ((c0 :: n') ++ ':' :: (t2 ++ ['}']))))
        from rfl]
      rw [str.pStep_pairs_comma (g + 1) .fnil (c0 :: n') _ _ v1 hn hall' H1]
      rw [show str.skipWs ((c0 :: n') ++ ':' :: (t2 ++ ['}']))
          = (c0 :: n') ++ ':' :: (t2 ++ ['}']) from by
        rw [show (c0 :: n') ++ ':' :: (t2 ++ ['}'])
            = c0 :: (n' ++ ':' :: (t2 ++ ['}'])) from rfl]
        exact str.skipWs_cons_no c0 _ (str.allowed_not_space c0 hc0)]
      rw [show fInsert .fnil (c0 :: n') v1 = .fcons (c0 :: n') v1 .fnil from rfl]
      rw [str.pStep_pairs_close g (.fcons (c0 :: n') v1 .fnil) (c0 :: n') _ _ v2
        hn hall' H2]
      rw [fInsert_dup (c0 :: n') v1 v2]

/-- Claim C3 witness: instance with name "a" and byte values 1 and 2, at
big endianness in the binary conjunct and on the text `{a:1b,a:2b}`. -/
theorem c3_duplicate_name_keeps_first_witness :
    bin.readFields .big (2 + 2) .fnil
        (entryBytes .big ['a'] (.byte 1) ++
          (entryBytes .big ['a'] (.byte 2) ++ (0 :: [])))
      = some (.fcons ['a'] (.byte 1) .fnil, []) ∧
    str.pTag (1 + 4)
        ('{' :: (['a'] ++ ':' ::
          ("1b".data ++ ',' :: (['a'] ++ ':' :: ("2b".data ++ ['}'])))))
      = some (.compound (.fcons ['a'] (.byte 1) .fnil), []) :=
  c3_duplicate_name_keeps_first .big 2 1 ['a'] (.byte 1) (.byte 2) [] "1b".data "2b".data
    (by decide)
    (by rw [show tagTy (.byte 1) = .Byte from rfl]; decide) rfl rfl
    (by rw [show tagTy (.byte 2) = .Byte from rfl]; decide) rfl rfl
    (by rw [show (bin.writePayload .big (.byte 1)).length = 1 from rfl]; omega)
    (by rw [show (bin.writePayload .big (.byte 2)).length = 1 from rfl]; omega)
    (by decide) (by decide) rfl rfl
